import Mathlib

/-!
Verification of the caching client and text-span parser of the notionapi
repository (files `caching_client.go` and the text-span parsing file).

Go byte strings (`string` / `[]byte`) are modelled as Lean `String`;
Go integer versions (`int64`) are modelled as `Int`; Go maps are modelled
as association lists with Go map semantics (missing key reads give the
zero value where the Go code relies on it).  Collaborators of the two
source files that belong to this repository but are not part of the
given sources (the identity normalizer, `PrettyPrintJS`) and the external
`siser` record framing are modelled from the spec, as marked on each
definition.
-/

namespace NotionCache

/-- Association-list lookup with Go map semantics (first binding wins;
the lists built here never hold duplicate keys). -/
def alookup {α : Type} (k : String) : List (String × α) → Option α
  | [] => none
  | (k1, v) :: rest => if k1 = k then some v else alookup k rest

/-- Association-list update: replaces the binding of `k` if present,
otherwise appends a new binding at the end (Go map assignment). -/
def aset {α : Type} (k : String) (v : α) : List (String × α) → List (String × α)
  | [] => [(k, v)]
  | (k1, v1) :: rest => if k1 = k then (k, v) :: rest else (k1, v1) :: aset k v rest

/-- Association-list removal of a key (`os.Remove` on the file map). -/
def aerase {α : Type} (k : String) (l : List (String × α)) : List (String × α) :=
  l.filter (fun p => p.1 ≠ k)

/-- Whether an `Except` value is the error case. -/
def exceptIsError {ε α : Type} : Except ε α → Bool
  | .error _ => true
  | .ok _ => false

/-! ## Identity model

Modelled from the spec: the identity normalizer "validates free-form
strings as legal identities and produces canonical dashed/no-dash forms;
equality is defined on the no-dash form".  This code lives in the
repository outside the given source files. -/

/-- Modelled from the spec: `ToNoDashID` removes every dash from an id
string, producing the canonical no-dash form. -/
def ToNoDashID (s : String) : String :=
  String.mk (s.data.filter (fun c => c ≠ Char.ofNat 45))

/-- Whether a character is a lowercase hexadecimal digit. -/
def isHexLower (c : Char) : Bool :=
  c.isDigit || (97 ≤ c.toNat && c.toNat ≤ 102)

/-- A validated notion id; `NoDashID` is the canonical no-dash form. -/
structure NotionID where
  NoDashID : String
deriving DecidableEq

/-- Modelled from the spec: `NewNotionID` validates a free-form string as
a legal identity, producing its canonical no-dash form; a legal identity
is 32 lowercase hex digits once dashes are removed. -/
def NewNotionID (s : String) : Option NotionID :=
  let nd := ToNoDashID s
  if nd.length = 32 ∧ nd.data.all isHexLower then some ⟨nd⟩ else none

/-- Modelled from the spec: dash-insensitive id equality (equality of
no-dash forms). -/
def isIDEqual (a b : String) : Bool :=
  ToNoDashID a == ToNoDashID b

/-- Modelled from the spec: `normalizeIDS` rewrites every id of the batch
to its canonical no-dash form in place. -/
def normalizeIDS (ids : List String) : List String :=
  ids.map ToNoDashID

/-! ## JSON pretty-printing model

Modelled from the spec: "Response bodies are stored pretty-printed when
JSON-parseable, else stored verbatim" (`PrettyPrintJS`, repository code
outside the given source files).  The model parses the bytes as a JSON
value whose lexemes (string contents, number/keyword literals) are kept
raw, and re-renders the value with two-space indentation; inputs that do
not parse are returned verbatim. -/

/-- A parsed JSON value keeping raw lexemes. -/
inductive JsonV where
  | lit (raw : List Char)
  | str (raw : List Char)
  | arr (elems : List JsonV)
  | obj (fields : List (List Char × JsonV))

/-- Structural JSON characters, written via codepoints to keep literal
braces out of the file. -/
def quoteChar : Char := Char.ofNat 34

def backslashChar : Char := Char.ofNat 92

def lcurlChar : Char := Char.ofNat 123

def rcurlChar : Char := Char.ofNat 125

def lbrackChar : Char := Char.ofNat 91

def rbrackChar : Char := Char.ofNat 93

def commaChar : Char := Char.ofNat 44

def colonChar : Char := Char.ofNat 58

def nlChar : Char := Char.ofNat 10

/-- JSON insignificant whitespace. -/
def jsonWS (c : Char) : Bool :=
  c = Char.ofNat 32 || c = Char.ofNat 9 || c = nlChar || c = Char.ofNat 13

/-- Drop leading JSON whitespace. -/
def skipWS : List Char → List Char
  | [] => []
  | c :: cs => if jsonWS c then skipWS cs else c :: cs

/-- Scan the interior of a JSON string after the opening quote, keeping
escape sequences raw; returns the raw contents and the input after the
closing quote. -/
def scanStr : List Char → Option (List Char × List Char)
  | [] => none
  | c :: cs =>
    if c = quoteChar then some ([], cs)
    else if c = backslashChar then
      match cs with
      | [] => none
      | d :: cs1 =>
        match scanStr cs1 with
        | none => none
        | some (content, rest) => some (c :: d :: content, rest)
    else
      match scanStr cs with
      | none => none
      | some (content, rest) => some (c :: content, rest)

/-- Characters ending a bare literal lexeme (number, keyword). -/
def litStop (c : Char) : Bool :=
  jsonWS c || c = commaChar || c = colonChar || c = quoteChar ||
    c = lcurlChar || c = rcurlChar || c = lbrackChar || c = rbrackChar

mutual

/-- Parse one JSON value (fuel-bounded recursive descent). -/
def parseVal : Nat → List Char → Option (JsonV × List Char)
  | 0, _ => none
  | fuel + 1, cs =>
    match skipWS cs with
    | [] => none
    | c :: rest =>
      if c = quoteChar then
        match scanStr rest with
        | none => none
        | some (content, rest1) => some (.str content, rest1)
      else if c = lcurlChar then
        match parseObjTail fuel rest with
        | none => none
        | some (fields, rest1) => some (.obj fields, rest1)
      else if c = lbrackChar then
        match parseArrTail fuel rest with
        | none => none
        | some (elems, rest1) => some (.arr elems, rest1)
      else
        let raw := (c :: rest).takeWhile (fun d => ¬ litStop d)
        if raw.isEmpty then none
        else some (.lit raw, (c :: rest).drop raw.length)

/-- Parse the rest of a JSON array, right after the opening bracket. -/
def parseArrTail : Nat → List Char → Option (List JsonV × List Char)
  | 0, _ => none
  | fuel + 1, cs =>
    match skipWS cs with
    | [] => none
    | c :: rest =>
      if c = rbrackChar then some ([], rest)
      else
        match parseVal fuel (c :: rest) with
        | none => none
        | some (v, cs1) =>
          match parseArrSep fuel cs1 with
          | none => none
          | some (vs, cs2) => some (v :: vs, cs2)

/-- Parse the continuation of a JSON array after an element: either a
comma and a further element, or the closing bracket. -/
def parseArrSep : Nat → List Char → Option (List JsonV × List Char)
  | 0, _ => none
  | fuel + 1, cs =>
    match skipWS cs with
    | [] => none
    | c :: rest =>
      if c = rbrackChar then some ([], rest)
      else if c = commaChar then
        match parseVal fuel rest with
        | none => none
        | some (v, cs1) =>
          match parseArrSep fuel cs1 with
          | none => none
          | some (vs, cs2) => some (v :: vs, cs2)
      else none

/-- Parse one `"key": value` member of a JSON object. -/
def parseMember : Nat → List Char → Option ((List Char × JsonV) × List Char)
  | 0, _ => none
  | fuel + 1, cs =>
    match skipWS cs with
    | [] => none
    | c :: rest =>
      if c = quoteChar then
        match scanStr rest with
        | none => none
        | some (key, cs1) =>
          match skipWS cs1 with
          | [] => none
          | d :: cs2 =>
            if d = colonChar then
              match parseVal fuel cs2 with
              | none => none
              | some (v, cs3) => some ((key, v), cs3)
            else none
      else none

/-- Parse the rest of a JSON object, right after the opening brace. -/
def parseObjTail : Nat → List Char → Option (List (List Char × JsonV) × List Char)
  | 0, _ => none
  | fuel + 1, cs =>
    match skipWS cs with
    | [] => none
    | c :: rest =>
      if c = rcurlChar then some ([], rest)
      else
        match parseMember fuel (c :: rest) with
        | none => none
        | some (m, cs1) =>
          match parseObjSep fuel cs1 with
          | none => none
          | some (ms, cs2) => some (m :: ms, cs2)

/-- Parse the continuation of a JSON object after a member: either a
comma and a further member, or the closing brace. -/
def parseObjSep : Nat → List Char → Option (List (List Char × JsonV) × List Char)
  | 0, _ => none
  | fuel + 1, cs =>
    match skipWS cs with
    | [] => none
    | c :: rest =>
      if c = rcurlChar then some ([], rest)
      else if c = commaChar then
        match parseMember fuel rest with
        | none => none
        | some (m, cs1) =>
          match parseObjSep fuel cs1 with
          | none => none
          | some (ms, cs2) => some (m :: ms, cs2)
      else none

end

/-- Two-space indentation at nesting depth `d`. -/
def jsonIndent (d : Nat) : List Char :=
  List.replicate (2 * d) (Char.ofNat 32)

mutual

/-- Render a JSON value with two-space indentation at depth `d`
(fuel-bounded; the fuel is always chosen at least the value's depth). -/
def renderV : Nat → Nat → JsonV → List Char
  | 0, _, _ => []
  | _ + 1, _, .lit raw => raw
  | _ + 1, _, .str raw => quoteChar :: raw ++ [quoteChar]
  | fuel + 1, d, .arr elems =>
    match elems with
    | [] => [lbrackChar, rbrackChar]
    | e :: es =>
      lbrackChar :: nlChar :: renderElems fuel (d + 1) (e :: es) ++
        nlChar :: jsonIndent d ++ [rbrackChar]
  | fuel + 1, d, .obj fields =>
    match fields with
    | [] => [lcurlChar, rcurlChar]
    | f :: fs =>
      lcurlChar :: nlChar :: renderMembers fuel (d + 1) (f :: fs) ++
        nlChar :: jsonIndent d ++ [rcurlChar]

/-- Render the comma-separated, indented elements of a JSON array. -/
def renderElems : Nat → Nat → List JsonV → List Char
  | 0, _, _ => []
  | _ + 1, _, [] => []
  | fuel + 1, d, [v] => jsonIndent d ++ renderV fuel d v
  | fuel + 1, d, v :: v1 :: vs =>
    jsonIndent d ++ renderV fuel d v ++
      commaChar :: nlChar :: renderElems fuel d (v1 :: vs)

/-- Render the comma-separated, indented members of a JSON object. -/
def renderMembers : Nat → Nat → List (List Char × JsonV) → List Char
  | 0, _, _ => []
  | _ + 1, _, [] => []
  | fuel + 1, d, [(k, v)] =>
    jsonIndent d ++ quoteChar :: k ++ quoteChar :: colonChar :: Char.ofNat 32 ::
      renderV fuel d v
  | fuel + 1, d, (k, v) :: m :: ms =>
    jsonIndent d ++ quoteChar :: k ++ quoteChar :: colonChar :: Char.ofNat 32 ::
      renderV fuel d v ++ commaChar :: nlChar :: renderMembers fuel d (m :: ms)

end

/-- Modelled from the spec: `PrettyPrintJS` returns its input re-rendered
with two-space indentation when the whole input parses as a JSON value,
and returns the input verbatim otherwise. -/
def PrettyPrintJS (s : String) : String :=
  let cs := s.data
  match parseVal (cs.length + 1) cs with
  | none => s
  | some (v, rest) =>
    if (skipWS rest).isEmpty then String.mk (renderV (cs.length + 1) 0 v) else s

/-! ## siser record framing

Modelled from the spec: the on-disk cache format is "a concatenation of
self-describing text records", each carrying "a type tag and ordered
key/value text fields ... framed so that arbitrary binary content in any
field is preserved across a read-back that scans for record boundaries
until end-of-file" (external library `github.com/kjk/siser`).  The model
represents a serialized stream at record granularity: a list of framed
records, each a name tag plus ordered key/value fields; concatenation of
streams is list append, and read-back walks the records in order. -/

/-- One framed siser record: a name tag and ordered key/value fields. -/
structure SiserRecord where
  name : String
  fields : List (String × String)
deriving DecidableEq

/-- Field lookup on a siser record (`siser.Record.Get`): first field with
the given key wins. -/
def recGet (r : SiserRecord) (key : String) : Option String :=
  alookup key r.fields

/-- The record type tag used for the request cache (`recCacheName`). -/
def recCacheName : String := "noahttpcache"

/-- One network exchange (`RequestCacheEntry`): request method, url and
body, plus the response. -/
structure RequestCacheEntry where
  Method : String
  URL : String
  Body : String
  Response : String
deriving DecidableEq

/-- Key read with the Go error-pointer threading (`recGetKey`): once an
error is recorded every later read returns the empty string and keeps
the error; a missing key records an error. -/
def recGetKey (r : SiserRecord) (key : String) (err : Option String) :
    String × Option String :=
  match err with
  | some e => ("", some e)
  | none =>
    match recGet r key with
    | some v => (v, none)
    | none => ("", some ("didnt find key " ++ key))

/-- Serialize one cache entry (`serializeCacheEntry`): a single record
named `recCacheName` holding Method, URL, Body verbatim and the response
run through `PrettyPrintJS`.  The Go error path comes from writing to an
in-memory buffer and cannot fire; it is kept in the signature. -/
def serializeCacheEntry (rr : RequestCacheEntry) : Except String (List SiserRecord) :=
  .ok [{ name := recCacheName,
         fields := [("Method", rr.Method), ("URL", rr.URL), ("Body", rr.Body),
                    ("Response", PrettyPrintJS rr.Response)] }]

/-- The one framed record `serializeCacheEntry` produces for an entry. -/
def serRecOf (rr : RequestCacheEntry) : SiserRecord :=
  { name := recCacheName,
    fields := [("Method", rr.Method), ("URL", rr.URL), ("Body", rr.Body),
               ("Response", PrettyPrintJS rr.Response)] }

/-- Serialize a list of cache entries in order, concatenating the
serialized bytes, stopping at the first serialization error (the loop of
`writeCacheForCurrPage`). -/
def serializeAll : List RequestCacheEntry → Except String (List SiserRecord)
  | [] => .ok []
  | rr :: rest =>
    match serializeCacheEntry rr with
    | .error e => .error e
    | .ok d =>
      match serializeAll rest with
      | .error e => .error e
      | .ok buf => .ok (d ++ buf)

/-- The read-back loop of `deserializeCacheEntry`: walks the framed
records; a record with an unexpected name aborts immediately; key reads
thread the shared error, which is checked only after the loop.  Returns
the entries read together with the threaded error. -/
def deserRecords : List SiserRecord → Option String →
    Except String (List RequestCacheEntry × Option String)
  | [], err => .ok ([], err)
  | r :: rest, err =>
    if r.name ≠ recCacheName then
      .error ("unexpected record type " ++ r.name ++ ", wanted " ++ recCacheName)
    else
      let (m, err1) := recGetKey r "Method" err
      let (u, err2) := recGetKey r "URL" err1
      let (b, err3) := recGetKey r "Body" err2
      let (resp, err4) := recGetKey r "Response" err3
      match deserRecords rest err4 with
      | .error e => .error e
      | .ok (tl, err5) =>
        .ok ({ Method := m, URL := u, Body := b, Response := resp } :: tl, err5)

/-- Deserialize a concatenated stream of cache records
(`deserializeCacheEntry`). -/
def deserializeCacheEntry (d : List SiserRecord) : Except String (List RequestCacheEntry) :=
  match deserRecords d none with
  | .error e => .error e
  | .ok (_, some e) => .error e
  | .ok (res, none) => .ok res

/-! ## Byte-level string helpers

Go's `strings.HasSuffix`, `strings.Replace` and `sort.Strings` work on
bytes; they are modelled here as executable functions on the character
lists underlying the model's strings. -/

/-- Whether the first list is a leading segment of the second. -/
def leadsList : List Char → List Char → Bool
  | [], _ => true
  | _ :: _, [] => false
  | a :: as, b :: bs => a = b && leadsList as bs

/-- Go's `strings.HasSuffix` (ditto `String.endsWith`). -/
def strHasSuffix (s post : String) : Bool :=
  leadsList post.data.reverse s.data.reverse

/-- If `pat` leads `cs`, return the remainder after it. -/
def dropLead : List Char → List Char → Option (List Char)
  | [], cs => some cs
  | _ :: _, [] => none
  | p :: ps, c :: cs => if c = p then dropLead ps cs else none

/-- The character list of the literal `".txt"`. -/
def txtPat : List Char := [Char.ofNat 46, Char.ofNat 116, Char.ofNat 120, Char.ofNat 116]

/-- Remove every occurrence of `".txt"` (fuel-bounded scan; the fuel is
always chosen larger than the input length, making this Go's
`strings.Replace(name, ".txt", "", -1)`). -/
def removeTxtAux : Nat → List Char → List Char
  | 0, cs => cs
  | fuel + 1, cs =>
    match cs with
    | [] => []
    | c :: rest =>
      match dropLead txtPat cs with
      | some tail => removeTxtAux fuel tail
      | none => c :: removeTxtAux fuel rest

/-- Go's `strings.Replace(name, ".txt", "", -1)`. -/
def removeTxt (s : String) : String :=
  String.mk (removeTxtAux (s.data.length + 1) s.data)

/-- Byte-wise lexicographic order on character lists (Go's string
order). -/
def strLeList : List Char → List Char → Bool
  | [], _ => true
  | _ :: _, [] => false
  | a :: as, b :: bs =>
    if a.toNat = b.toNat then strLeList as bs else decide (a.toNat < b.toNat)

/-- Go's string order `a <= b`. -/
def strLeb (a b : String) : Bool :=
  strLeList a.data b.data

/-! ## Cache directory loading (`readRequestsCacheFile`) -/

/-- One directory entry of the cache directory as seen by
`readRequestsCacheFile`: its name, whether it is a regular file, whether
reading it succeeds, and its (record-level) content. -/
structure CacheFile where
  name : String
  regular : Bool
  readOk : Bool
  content : List SiserRecord
deriving DecidableEq

/-- The per-file loop of `readRequestsCacheFile`: non-regular entries,
names without the `.txt` suffix and names that do not validate as
identities are skipped; a file read failure or a deserialization failure
aborts the load with that error; loaded entries are indexed under the
no-dash id. -/
def loadCacheFiles : List CacheFile → List (String × List RequestCacheEntry) →
    Except String (List (String × List RequestCacheEntry))
  | [], idx => .ok idx
  | f :: rest, idx =>
    if ¬ f.regular then loadCacheFiles rest idx
    else if ¬ strHasSuffix f.name ".txt" then loadCacheFiles rest idx
    else
      match NewNotionID (removeTxt f.name) with
      | none => loadCacheFiles rest idx
      | some nid =>
        if ¬ f.readOk then .error "file read failed"
        else
          match deserializeCacheEntry f.content with
          | .error e => .error e
          | .ok entries => loadCacheFiles rest (aset nid.NoDashID entries idx)

/-- Whether the load loop considers a directory entry at all: a regular
file with the `.txt` suffix whose remaining name validates as an
identity.  Everything else is silently skipped. -/
def relevantCacheFile (f : CacheFile) : Bool :=
  f.regular && strHasSuffix f.name ".txt" && (NewNotionID (removeTxt f.name)).isSome

/-- Build the in-memory request index from the cache directory
(`readRequestsCacheFile`); `mkdirOk` and `readDirOk` are whether
`os.MkdirAll` and `ioutil.ReadDir` succeed. -/
def readRequestsCacheFile (mkdirOk readDirOk : Bool) (files : List CacheFile) :
    Except String (List (String × List RequestCacheEntry)) :=
  if ¬ mkdirOk then .error "mkdir failed"
  else if ¬ readDirOk then .error "readdir failed"
  else loadCacheFiles files []

/-! ## CachingClient state and transport

The mutable fields of `CachingClient` (and the one field of the wrapped
`Client` that the caching layer toggles) are gathered in `CCState`.  The
cache directory is modelled as a map from file name to record-level file
content; `httpPostOverride`, a function pointer in Go, is modelled as an
opaque numeric tag (`overrideTag` while the caching transport is
installed). -/

/-- Latest-version map entries (`IdToPageLatestVersion`). -/
abbrev VersionMap := List (String × Int)

/-- The mutable state of a `CachingClient` session. -/
structure CCState where
  pageIDToEntries : List (String × List RequestCacheEntry)
  fs : List (String × List SiserRecord)
  currPageID : Option NotionID
  currPageRequests : List RequestCacheEntry
  idToPageLatestVersion : VersionMap
  redownloadNewerVersions : Bool
  noReadCache : Bool
  reqFromCache : Nat
  reqNotFromCache : Nat
  reqWrittenToCache : Nat
  httpPostOverride : Nat
deriving DecidableEq

/-- The tag standing for the `doPostMaybeCached` override closure. -/
def overrideTag : Nat := 1

/-- Errors surfaced by the caching download path. -/
inductive DLErr where
  | invalidID (id : String)
  | netErr (msg : String)
  | fuelOut
deriving DecidableEq

/-- First cache entry matching method, url and exact body bytes (the
linear scan of `tryReadFromCache`). -/
def findCachedResponse (method uri body : String) :
    List RequestCacheEntry → Option String
  | [] => none
  | r :: rest =>
    if r.Method = method ∧ r.URL = uri ∧ r.Body = body then some r.Response
    else findCachedResponse method uri body rest

/-- Cache lookup for the current page (`tryReadFromCache`): disabled
wholesale by `NoReadCache`, else a linear scan of the page's loaded
entries.  Go dereferences `currPageID` unconditionally; on every path
exercised here it is set, and the `none` case is an unreachable miss. -/
def tryReadFromCache (s : CCState) (method uri body : String) : Option String :=
  if s.noReadCache then none
  else
    match s.currPageID with
    | none => none
    | some nid =>
      findCachedResponse method uri body
        ((alookup nid.NoDashID s.pageIDToEntries).getD [])

/-- Record one exchange in the pending list (`cacheRequest`); outside the
context of a page (no current page id) nothing is recorded. -/
def cacheRequest (s : CCState) (method uri body response : String) : CCState :=
  match s.currPageID with
  | none => s
  | some _ =>
    { s with currPageRequests := s.currPageRequests ++
        [{ Method := method, URL := uri, Body := body, Response := response }] }

/-- The intercepted POST (`doPostMaybeCached`): cache hit returns the
cached response and bumps the from-cache counter; a miss delegates to
the live transport `net`, bumps the not-from-cache counter and records
the exchange. -/
def doPostMaybeCached (net : String → String → Except String String)
    (s : CCState) (uri body : String) : Except DLErr String × CCState :=
  match tryReadFromCache s "POST" uri body with
  | some d => (.ok d, { s with reqFromCache := s.reqFromCache + 1 })
  | none =>
    match net uri body with
    | .error e => (.error (.netErr e), s)
    | .ok d =>
      let s1 := { s with reqNotFromCache := s.reqNotFromCache + 1 }
      (.ok d, cacheRequest s1 "POST" uri body d)

/-- Errors of the per-page flush. -/
inductive CacheWriteErr where
  | serErr (msg : String)
  | writeFailed
  | nilCurrPage
deriving DecidableEq

/-- Flush the pending records of the current page
(`writeCacheForCurrPage`): nothing to do when the pending list is empty;
otherwise the serialized pending records overwrite the page's file.
`wok` is whether `ioutil.WriteFile` succeeds; on failure the partially
written file is removed and the error returned, leaving the pending list
and the counter untouched.  Go dereferences `currPageID` when the
pending list is non-empty; that situation cannot arise on the exercised
paths and is modelled as the explicit `nilCurrPage` error. -/
def writeCacheForCurrPage (wok : Bool) (s : CCState) : Option CacheWriteErr × CCState :=
  if s.currPageRequests = [] then (none, s)
  else
    match serializeAll s.currPageRequests with
    | .error e => (some (.serErr e), s)
    | .ok buf =>
      match s.currPageID with
      | none => (some .nilCurrPage, s)
      | some nid =>
        let path := nid.NoDashID ++ ".txt"
        if wok then
          (none, { s with fs := aset path buf s.fs,
                          reqWrittenToCache := s.reqWrittenToCache + s.currPageRequests.length,
                          currPageRequests := [] })
        else
          (some .writeFailed, { s with fs := aerase path s.fs })

/-- A deterministic model of the external page-download collaborator
(`client.DownloadPage`): given the responses received so far it either
issues another POST (uri, body) through the scoped transport or
finishes.  The parsed `Page` it would build is a function of the
response bytes, so the list of responses stands for the result. -/
abbrev FetchPlan := List String → Option (String × String)

/-- Run the page-download collaborator against the caching transport:
each step consults `doPostMaybeCached`; the collaborator's finite
request sequence is bounded by `fuel`. -/
def runDownload (plan : FetchPlan) (net : String → String → Except String String) :
    Nat → CCState → List String → Except DLErr (List String) × CCState
  | 0, s, _ => (.error .fuelOut, s)
  | fuel + 1, s, acc =>
    match plan acc with
    | none => (.ok acc, s)
    | some (uri, body) =>
      match doPostMaybeCached net s uri body with
      | (.error e, s1) => (.error e, s1)
      | (.ok d, s1) => runDownload plan net fuel s1 (acc ++ [d])

/-- The caching `DownloadPage`: resets the pending list, validates the
id (failing with an invalid-identity error), installs the transport
override, delegates to the collaborator, and — success or failure —
flushes the pending records, restores the previous override and clears
the current-page scope (the Go `defer`; the flush error is discarded
there). -/
def downloadPage (plan : FetchPlan) (net : String → String → Except String String)
    (wok : Bool) (fuel : Nat) (s : CCState) (pageID : String) :
    Except DLErr (List String) × CCState :=
  match NewNotionID pageID with
  | none =>
    (.error (.invalidID pageID), { s with currPageRequests := [], currPageID := none })
  | some nid =>
    let prevOverride := s.httpPostOverride
    let s1 := { s with currPageRequests := [], currPageID := some nid,
                       httpPostOverride := overrideTag }
    let (res, s2) := runDownload plan net fuel s1 []
    let (_, s3) := writeCacheForCurrPage wok s2
    (res, { s3 with httpPostOverride := prevOverride, currPageID := none })

/-! ## Version oracle (`getVersionsForPages`, `updateVersionsForPages`,
`canReturnCachedPage`) -/

/-- The slice of a block record consumed here: its id and version
(`b.ID`, `b.Version`). -/
structure Block where
  id : String
  version : Int
deriving DecidableEq

/-- Modelled from the spec: the block/version-query API returns, per
requested id and in order, a result whose block pointer may be nil (page
deleted or not visible).  The whole call may fail. -/
abbrev VersionOracle := List String → Except String (List (Option Block))

/-- Outcome of `getVersionsForPages`: a version list, a returned error,
or a Go panic (the defensive order check aborts the process). -/
inductive VerOutcome where
  | ok (versions : List Int)
  | err (msg : String)
  | goPanic (msg : String)
deriving DecidableEq

/-- The result loop of `getVersionsForPages`: a nil block yields the
sentinel version 0; a non-nil block whose id differs (dash-insensitive)
from the requested id at that position panics; otherwise the block's
version is taken. -/
def collectVersions : List String → List (Option Block) → VerOutcome
  | [], [] => .ok []
  | _ :: _, [] => .err "length"
  | [], _ :: _ => .err "length"
  | id :: ids, rec :: recs =>
    match rec with
    | none =>
      match collectVersions ids recs with
      | .ok vs => .ok (0 :: vs)
      | e => e
    | some b =>
      if isIDEqual id b.id then
        match collectVersions ids recs with
        | .ok vs => .ok (b.version :: vs)
        | e => e
      else .goPanic "got result in the wrong order"

/-- Batch version query (`getVersionsForPages`): normalizes the ids,
queries the oracle on a cache-bypassing client copy, rejects a result
count different from the request count, then collects versions with the
defensive order check. -/
def getVersionsForPages (oracle : VersionOracle) (ids : List String) : VerOutcome :=
  let nids := normalizeIDS ids
  match oracle nids with
  | .error e => .err e
  | .ok results =>
    if results.length ≠ nids.length then
      .err "getVersionsForPages: wrong result count"
    else collectVersions nids results

/-- Go's `sort.Strings` (byte-wise ascending). -/
def sortStrings (l : List String) : List String :=
  List.insertionSort (fun a b => strLeb a b = true) l

/-- Write a batch of versions into the latest-version map, keyed by
no-dash id (the update loop of `updateVersionsForPages`). -/
def writeVersions (m : VersionMap) : List String → List Int → VersionMap
  | [], _ => m
  | _, [] => m
  | id :: ids, v :: vs => writeVersions (aset (ToNoDashID id) v m) ids vs

/-- Update the latest-version map for a batch of ids
(`updateVersionsForPages`): empty batches are a no-op; ids are sorted
for the query; an oracle failure is surfaced as a returned error
(`Option String`), while the defensive panic aborts (the `Except` error
channel). -/
def updateVersionsForPages (oracle : VersionOracle) (s : CCState) (ids : List String) :
    Except String (Option String × CCState) :=
  if ids.isEmpty then .ok (none, s)
  else
    let sorted := sortStrings ids
    match getVersionsForPages oracle sorted with
    | .goPanic m => .error m
    | .err e => .ok (some ("updateVersionsForPages failed: " ++ e), s)
    | .ok versions =>
      if sorted.length ≠ versions.length then
        .ok (some "updateVersionsForPages: wrong result count", s)
      else
        .ok (none, { s with
          idToPageLatestVersion := writeVersions s.idToPageLatestVersion sorted versions })

/-- The slice of a parsed `Page` consumed by the staleness check: its id
and its root block's version (`p.Root().Version`). -/
structure Page where
  id : String
  version : Int
deriving DecidableEq

/-- Staleness check (`canReturnCachedPage`): a nil page is never
returned; with freshness mode off every page is returned; otherwise the
latest-version entry is populated by a single-id oracle call when
missing (a failing call rejects the page), and the page is returned
exactly when its version is at least the recorded latest (a missing
entry reads as the Go zero value 0).  The `Except` channel propagates
the defensive panic. -/
def canReturnCachedPage (oracle : VersionOracle) (s : CCState) (p : Option Page) :
    Except String (Bool × CCState) :=
  match p with
  | none => .ok (false, s)
  | some page =>
    if ¬ s.redownloadNewerVersions then .ok (true, s)
    else
      let pageID := ToNoDashID page.id
      match alookup pageID s.idToPageLatestVersion with
      | some _ =>
        let newestVer := (alookup pageID s.idToPageLatestVersion).getD 0
        .ok (decide (page.version ≥ newestVer), s)
      | none =>
        match updateVersionsForPages oracle s [pageID] with
        | .error m => .error m
        | .ok (some _, s1) => .ok (false, s1)
        | .ok (none, s1) =>
          let newestVer := (alookup pageID s1.idToPageLatestVersion).getD 0
          .ok (decide (page.version ≥ newestVer), s1)

/-! ## Text span parsing (`ParseTextSpans`) -/

/-- A decoded JSON value as Go's `interface{}` presents it to the span
parser: nil, a string, a generic list, a string-keyed map, or any other
scalar (number, bool, ...) that the parser only ever rejects. -/
inductive GoVal where
  | vnil
  | str (s : String)
  | list (elems : List GoVal)
  | vmap (fields : List (String × GoVal))
  | other

/-- Whether a `GoVal` is a generic list (`[]interface{}`). -/
def GoVal.isList : GoVal → Bool
  | .list _ => true
  | _ => false

/-- Whether a `GoVal` is a string. -/
def GoVal.isStr : GoVal → Bool
  | .str _ => true
  | _ => false

/-- A text attribute (`TextAttr = []string`): the kind tag followed by
its values. -/
abbrev TextAttr := List String

/-- A text span: the text and its attributes. -/
structure TextSpan where
  Text : String
  Attrs : List TextAttr
deriving DecidableEq

/-- The date attribute kind tag (`Attr2Date`). -/
def Attr2Date : String := "d"

mutual

/-- Modelled from the spec: `json.MarshalIndent(v, "", "  ")` applied to
a decoded map — a two-space indented JSON rendering.  Scalars other than
strings are rendered as a fixed placeholder; the claims depend only on
the rendering being a single string value.  Go's marshal error exists
only for values JSON decoding never produces and is dropped. -/
def marshalGoVal : Nat → GoVal → List Char
  | _, .vnil => [Char.ofNat 110, Char.ofNat 117, Char.ofNat 108, Char.ofNat 108]
  | _, .str s => quoteChar :: s.data ++ [quoteChar]
  | _, .other => [Char.ofNat 48]
  | d, .list elems =>
    match elems with
    | [] => [lbrackChar, rbrackChar]
    | e :: es =>
      lbrackChar :: nlChar :: marshalGoElems (d + 1) (e :: es) ++
        nlChar :: jsonIndent d ++ [rbrackChar]
  | d, .vmap fields =>
    match fields with
    | [] => [lcurlChar, rcurlChar]
    | f :: fs =>
      lcurlChar :: nlChar :: marshalGoFields (d + 1) (f :: fs) ++
        nlChar :: jsonIndent d ++ [rcurlChar]

/-- Render the elements of a decoded list, comma-separated and
indented. -/
def marshalGoElems : Nat → List GoVal → List Char
  | _, [] => []
  | d, [v] => jsonIndent d ++ marshalGoVal d v
  | d, v :: v1 :: vs =>
    jsonIndent d ++ marshalGoVal d v ++ commaChar :: nlChar :: marshalGoElems d (v1 :: vs)

/-- Render the fields of a decoded map, comma-separated and indented. -/
def marshalGoFields : Nat → List (String × GoVal) → List Char
  | _, [] => []
  | d, [(k, v)] =>
    jsonIndent d ++ quoteChar :: k.data ++ quoteChar :: colonChar :: Char.ofNat 32 ::
      marshalGoVal d v
  | d, (k, v) :: f :: fs =>
    jsonIndent d ++ quoteChar :: k.data ++ quoteChar :: colonChar :: Char.ofNat 32 ::
      marshalGoVal d v ++ commaChar :: nlChar :: marshalGoFields d (f :: fs)

end

/-- The marshaled form of a date attribute's map value. -/
def marshalDateMap (m : List (String × GoVal)) : String :=
  String.mk (marshalGoVal 0 (.vmap m))

/-- Collect the trailing values of a non-date attribute, all of which
must be strings (the `a[1:]` loop of `parseTextSpanAttribute`). -/
def collectAttrStrings : List GoVal → Except String (List String)
  | [] => .ok []
  | v :: rest =>
    match v with
    | .str s =>
      match collectAttrStrings rest with
      | .error e => .error e
      | .ok strs => .ok (s :: strs)
    | _ => .error "got unexpected type (expected string)"

/-- Parse one attribute (`parseTextSpanAttribute`): the first element
must be a string kind tag; a date attribute must have exactly one more
value, a map, stored marshaled; any other kind takes all trailing
values, which must be strings. -/
def parseTextSpanAttribute (b : TextSpan) (a : List GoVal) : Except String TextSpan :=
  match a with
  | [] => .error "attribute array is empty"
  | a0 :: rest =>
    match a0 with
    | .str s =>
      if s = Attr2Date then
        match rest with
        | [v] =>
          match v with
          | .vmap m =>
            .ok { b with Attrs := b.Attrs ++ [[s, marshalDateMap m]] }
          | _ => .error "got unexpected type (expected map)"
        | _ => .error "unexpected date attribute, expected 2 values"
      else
        match collectAttrStrings rest with
        | .error e => .error e
        | .ok strs => .ok { b with Attrs := b.Attrs ++ [s :: strs] }
    | _ => .error "a0 is not string"

/-- Parse the attribute list of a span (`parseTextSpanAttributes`): each
raw attribute must itself be a list. -/
def parseTextSpanAttributes (b : TextSpan) : List GoVal → Except String TextSpan
  | [] => .ok b
  | rawAttr :: rest =>
    match rawAttr with
    | .list attrList =>
      match parseTextSpanAttribute b attrList with
      | .error e => .error e
      | .ok b1 => parseTextSpanAttributes b1 rest
    | _ => .error "rawAttr is not a list"

/-- Parse one span (`parseTextSpan`): a one-element list is plain text;
a two-element list is text plus an attribute list; anything else is a
shape error. -/
def parseTextSpan (a : List GoVal) : Except String TextSpan :=
  match a with
  | [] => .error "a is empty"
  | [x] =>
    match x with
    | .str s => .ok { Text := s, Attrs := [] }
    | _ => .error "a is of length 1 but not string"
  | [x, y] =>
    match x with
    | .str s =>
      match y with
      | .list attrs => parseTextSpanAttributes { Text := s, Attrs := [] } attrs
      | _ => .error "a1 is not a list"
    | _ => .error "a0 is not string"
  | _ => .error "a is of length different from 2"

/-- The per-element loop of `ParseTextSpans`: every element must itself
be a list, parsed as one span. -/
def parseSpanList : List GoVal → Except String (List TextSpan)
  | [] => .ok []
  | v :: rest =>
    match v with
    | .list a2 =>
      match parseTextSpan a2 with
      | .error e => .error e
      | .ok span =>
        match parseSpanList rest with
        | .error e => .error e
        | .ok spans => .ok (span :: spans)
    | _ => .error "v is not a list"

/-- Parse raw decoded JSON into text spans (`ParseTextSpans`): nil input
yields no spans and no error; the input must otherwise be a non-empty
list of lists. -/
def ParseTextSpans (raw : GoVal) : Except String (List TextSpan) :=
  match raw with
  | .vnil => .ok []
  | .list a =>
    if a.isEmpty then .error "raw is empty"
    else parseSpanList a
  | _ => .error "raw is not a list"

/-! ## Recursive crawl (`DownloadPagesRecursively`) -/

/-- The slice of a downloaded page the crawler consumes: its declared
child page ids (`page.GetSubPages()`). -/
structure CrawlPage where
  subPages : List String
deriving DecidableEq

/-- Errors of the crawl: fuel exhaustion (standing for non-termination
of the unbounded Go loop), a failed page download, or a failed
`afterDownload` callback. -/
inductive CrawlErr where
  | fuelOut
  | dlFailed (msg : String)
  | cbFailed (msg : String)
deriving DecidableEq

/-- The crawl worklist loop (`DownloadPagesRecursively`): pop an id,
normalize it, skip it if already downloaded, otherwise download it,
run the optional callback (whose failure aborts the whole crawl) and
enqueue its children.  The second component records, in order, the ids
actually passed to the downloader — instrumentation for stating the
visit-count property; it does not influence the rest of the result. -/
def crawlLoop (dl : String → Except String CrawlPage)
    (cb : Option (CrawlPage → Except String Unit)) :
    Nat → List String → List (String × CrawlPage) →
    Except CrawlErr (List (String × CrawlPage)) × List String
  | 0, _, _ => (.error .fuelOut, [])
  | _ + 1, [], downloaded => (.ok downloaded, [])
  | fuel + 1, x :: rest, downloaded =>
    let pageID := ToNoDashID x
    if (alookup pageID downloaded).isSome then crawlLoop dl cb fuel rest downloaded
    else
      match dl pageID with
      | .error e => (.error (.dlFailed e), [pageID])
      | .ok page =>
        match (match cb with | none => Except.ok () | some g => g page) with
        | .error e => (.error (.cbFailed e), [pageID])
        | .ok _ =>
          let (r, calls) := crawlLoop dl cb fuel (rest ++ page.subPages)
            (aset pageID page downloaded)
          (r, pageID :: calls)

/-- The crawl entry point (`DownloadPagesRecursively`): runs the
worklist from the start id; on success, no downloads yield nothing,
otherwise the downloaded pages are returned sorted ascending by no-dash
id (each paired here with its id, which Go keeps inside the page). -/
def downloadPagesRecursively (dl : String → Except String CrawlPage)
    (cb : Option (CrawlPage → Except String Unit)) (fuel : Nat) (startPageID : String) :
    Except CrawlErr (Option (List (String × CrawlPage))) × List String :=
  match crawlLoop dl cb fuel [startPageID] [] with
  | (.error e, calls) => (.error e, calls)
  | (.ok downloaded, calls) =>
    if downloaded.length = 0 then (.ok none, calls)
    else
      let ids := sortStrings (downloaded.map Prod.fst)
      (.ok (some (ids.map (fun id => (id, (alookup id downloaded).getD ⟨[]⟩)))), calls)

/-- Child ids of a page in a finite reference graph given as an
association list keyed by no-dash id; pages outside the graph have no
children. -/
def gsub (g : List (String × List String)) (pid : String) : List String :=
  (alookup pid g).getD []

/-- The downloader induced by a finite reference graph: every page
downloads successfully and declares its children from the graph. -/
def graphDL (g : List (String × List String)) (pid : String) : Except String CrawlPage :=
  .ok ⟨gsub g pid⟩

/-- Every no-dash id mentioned by a finite reference graph or the start
id. -/
def mentionedIDs (g : List (String × List String)) (start : String) : List String :=
  ToNoDashID start ::
    g.foldr (fun p acc => p.1 :: p.2.map ToNoDashID ++ acc) []

/-- The deduplicated id universe of a crawl over a finite graph. -/
def crawlUniverse (g : List (String × List String)) (start : String) : List String :=
  (mentionedIDs g start).dedup

/-- The worklist potential: queue length plus, for each universe id not
yet downloaded, one download step plus its enqueued children.  It
strictly decreases at every loop iteration. -/
def crawlPot (g : List (String × List String)) (start : String)
    (queue : List String) (downKeys : List String) : Nat :=
  queue.length +
    (((crawlUniverse g start).filter (fun p => ¬ p ∈ downKeys)).map
      (fun p => 1 + (gsub g p).length)).sum

/-- A fuel budget sufficient for the whole crawl from the start id. -/
def crawlBound (g : List (String × List String)) (start : String) : Nat :=
  crawlPot g start [start] [] + 1

/-- Reachability in the reference graph, on no-dash ids: the start page
is reachable, and so is every (normalized) child of a reachable page. -/
inductive Reach (g : List (String × List String)) (start : String) : String → Prop
  | base : Reach g start (ToNoDashID start)
  | step {p q : String} : Reach g start p → q ∈ gsub g p → Reach g start (ToNoDashID q)

/-! ## Pure download trace

`runDownload` only reads the loaded entries of the current page and the
`NoReadCache` flag, and only adds to the three per-download deltas
(from-cache count, not-from-cache count, recorded exchanges).
`pureTrace` computes result and deltas from those inputs alone; the
correspondence is proved below and drives the idempotence analysis. -/

/-- Cache lookup on a page's loaded entries, as a function of the
entries and the `NoReadCache` flag only. -/
def lookupEntries (entries : List RequestCacheEntry) (noRead : Bool)
    (method uri body : String) : Option String :=
  if noRead then none else findCachedResponse method uri body entries

/-- Result and per-download deltas of `runDownload` as a pure function
of the fetch plan, the live transport, the page's loaded entries and the
`NoReadCache` flag. -/
def pureTrace (plan : FetchPlan) (net : String → String → Except String String) :
    Nat → List RequestCacheEntry → Bool → List String →
    Except DLErr (List String) × Nat × Nat × List RequestCacheEntry
  | 0, _, _, _ => (.error .fuelOut, 0, 0, [])
  | fuel + 1, entries, noRead, acc =>
    match plan acc with
    | none => (.ok acc, 0, 0, [])
    | some (uri, body) =>
      match lookupEntries entries noRead "POST" uri body with
      | some d =>
        let (r, fc, nf, recs) := pureTrace plan net fuel entries noRead (acc ++ [d])
        (r, fc + 1, nf, recs)
      | none =>
        match net uri body with
        | .error e => (.error (.netErr e), 0, 0, [])
        | .ok d =>
          let (r, fc, nf, recs) := pureTrace plan net fuel entries noRead (acc ++ [d])
          (r, fc, nf + 1,
            { Method := "POST", URL := uri, Body := body, Response := d } :: recs)

/-! ## Concrete inputs for counterexamples and witnesses -/

/-- A fresh session state: empty cache, read cache enabled, freshness
mode off. -/
def s0 : CCState :=
  { pageIDToEntries := [], fs := [], currPageID := none, currPageRequests := [],
    idToPageLatestVersion := [], redownloadNewerVersions := false, noReadCache := false,
    reqFromCache := 0, reqNotFromCache := 0, reqWrittenToCache := 0, httpPostOverride := 0 }

/-- A valid page id (32 lowercase hex digits). -/
def pidA : String := "00000000000000000000000000000001"

/-- A second valid page id. -/
def pidB : String := "00000000000000000000000000000002"

/-- A cache record whose response is compact JSON — parseable, so it is
stored pretty-printed, not verbatim. -/
def c1rec : RequestCacheEntry :=
  { Method := "m", URL := "u", Body := "b", Response := "\x7b\"a\":1\x7d" }

/-- The same record as read back: the response got pretty-printed. -/
def c1out : RequestCacheEntry :=
  { Method := "m", URL := "u", Body := "b", Response := "\x7b\n  \"a\": 1\n\x7d" }

/-- A fetch plan issuing exactly one POST and then finishing. -/
def onePostPlan : FetchPlan := fun acc =>
  if acc.isEmpty then some ("u", "b") else none

/-- A live transport answering every POST with the non-JSON body "r". -/
def constNet : String → String → Except String String := fun _ _ => .ok "r"

/-- A session state holding one pending record for page `pidA`. -/
def c3state : CCState :=
  { s0 with currPageID := some ⟨pidA⟩, currPageRequests := [c1rec],
            fs := [(pidA ++ ".txt", [])] }

/-- An oracle answering any one-id batch with a block of a different id
(version 3): the defensive order check fires. -/
def misalignedOracle : VersionOracle := fun ids =>
  .ok (ids.map (fun _ => some { id := pidB, version := 3 }))

/-- A well-named cache file whose content is malformed: its single
record carries the wrong type tag, so deserialization fails. -/
def badCacheFile : CacheFile :=
  { name := pidA ++ ".txt", regular := true, readOk := true,
    content := [{ name := "wrongtag", fields := [] }] }

/-- A session state in which freshness mode is off but a latest version
5 is recorded for `pidA`. -/
def c6state : CCState :=
  { s0 with idToPageLatestVersion := [(pidA, 5)] }

/-- A cached page for `pidA` at version 1 — below the recorded latest
version 5. -/
def c6page : Page := { id := pidA, version := 1 }

/-- An oracle that never answers (never consulted in the C6
counterexample). -/
def noOracle : VersionOracle := fun _ => .error "unused"

/-- The cyclic two-page reference graph A→B, B→A. -/
def cycGraph : List (String × List String) := [(pidA, [pidB]), (pidB, [pidA])]

/-- A freshness-mode state whose recorded latest version for `pidA` is
the sentinel 0. -/
def c6wstate : CCState :=
  { s0 with redownloadNewerVersions := true, idToPageLatestVersion := [(pidA, 0)] }

/-- A cached page for `pidA` at the real version 1. -/
def c6wpage : Page := { id := pidA, version := 1 }

/-! ## Serialization lemmas -/

theorem serializeCacheEntry_eq (rr : RequestCacheEntry) :
    serializeCacheEntry rr = .ok [serRecOf rr] := rfl

theorem serializeAll_eq (rs : List RequestCacheEntry) :
    serializeAll rs = .ok (rs.map serRecOf) := by
  induction rs with
  | nil => rfl
  | cons r rest ih => simp [serializeAll, serializeCacheEntry_eq, ih]

theorem deserRecords_serRecOf (rs : List RequestCacheEntry) :
    deserRecords (rs.map serRecOf) none =
      .ok (rs.map (fun r => { r with Response := PrettyPrintJS r.Response }), none) := by
  induction rs with
  | nil => rfl
  | cons r rest ih =>
    simp [deserRecords, serRecOf, recGetKey, recGet, alookup, recCacheName, ih]

/-- C1 (amended): serializing every record of a list with
`serializeCacheEntry`, concatenating the results, and deserializing with
`deserializeCacheEntry` yields a list of the same length whose records
keep the original Method, URL and Body bytes exactly, and whose
Response is the pretty-printed (when JSON-parseable, else verbatim)
original Response — not always the original bytes. -/
theorem c1_roundtrip (rs : List RequestCacheEntry) :
    serializeAll rs = .ok (rs.map serRecOf) ∧
    deserializeCacheEntry (rs.map serRecOf) =
      .ok (rs.map (fun r => { r with Response := PrettyPrintJS r.Response })) ∧
    (rs.map (fun r => { r with Response := PrettyPrintJS r.Response })).length = rs.length := by
  refine ⟨serializeAll_eq rs, ?_, by simp⟩
  unfold deserializeCacheEntry
  rw [deserRecords_serRecOf]

/-- C1 counterexample: a record whose response is the compact JSON
object pairing key a with 1 does not round-trip byte-identically: the
read-back record's Response is the two-space-indented rendering, not
the original bytes. -/
theorem c1_counterexample :
    serializeAll [c1rec] = .ok [serRecOf c1rec] ∧
    deserializeCacheEntry [serRecOf c1rec] = .ok [c1out] ∧
    c1out.Response ≠ c1rec.Response := by
  refine ⟨rfl, by rfl, by decide⟩

/-- C3 (amended): flushing a non-empty pending list for the current
page: on write failure the page's cache file is deleted and the error
returned, with the pending list and the written-to-cache counter left
untouched; on success the file is overwritten with exactly the
serialized pending records, the pending list is cleared and the counter
grows by the number of pending records. -/
theorem c3_flush (s : CCState) (nid : NotionID)
    (hpid : s.currPageID = some nid) (hne : s.currPageRequests ≠ []) :
    writeCacheForCurrPage false s =
      (some .writeFailed, { s with fs := aerase (nid.NoDashID ++ ".txt") s.fs }) ∧
    writeCacheForCurrPage true s =
      (none, { s with
        fs := aset (nid.NoDashID ++ ".txt") (s.currPageRequests.map serRecOf) s.fs,
        reqWrittenToCache := s.reqWrittenToCache + s.currPageRequests.length,
        currPageRequests := [] }) := by
  constructor <;> simp [writeCacheForCurrPage, hne, serializeAll_eq, hpid]

theorem c3_flush_witness :
    writeCacheForCurrPage false c3state =
      (some .writeFailed,
        { c3state with fs := aerase ((⟨pidA⟩ : NotionID).NoDashID ++ ".txt") c3state.fs }) ∧
    writeCacheForCurrPage true c3state =
      (none, { c3state with
        fs := aset ((⟨pidA⟩ : NotionID).NoDashID ++ ".txt")
          (c3state.currPageRequests.map serRecOf) c3state.fs,
        reqWrittenToCache := c3state.reqWrittenToCache + c3state.currPageRequests.length,
        currPageRequests := [] }) :=
  c3_flush c3state ⟨pidA⟩ rfl (by decide)

/-- C3 counterexample: after a failed file write the error is returned
and the file deleted, but the pending request list is not cleared and
the written-to-cache counter is not updated. -/
theorem c3_counterexample :
    (writeCacheForCurrPage false c3state).1 = some .writeFailed ∧
    (writeCacheForCurrPage false c3state).2.currPageRequests = [c1rec] ∧
    (writeCacheForCurrPage false c3state).2.reqWrittenToCache = 0 := by
  decide

/-- C10: flushing with an empty pending request list returns no error
and leaves the whole session state unchanged — in particular the page's
on-disk cache file and the written-to-cache counter. -/
theorem c10_flush_empty (wok : Bool) (s : CCState) (h : s.currPageRequests = []) :
    writeCacheForCurrPage wok s = (none, s) := by
  simp [writeCacheForCurrPage, h]

theorem c10_flush_empty_witness :
    writeCacheForCurrPage true s0 = (none, s0) :=
  c10_flush_empty true s0 rfl

/-! ## Cache load lemmas (C5) -/

theorem loadCacheFiles_skip (f : CacheFile) (rest : List CacheFile)
    (idx : List (String × List RequestCacheEntry))
    (hrel : ¬ relevantCacheFile f = true) :
    loadCacheFiles (f :: rest) idx = loadCacheFiles rest idx := by
  by_cases hreg : f.regular = true
  · by_cases hsuf : strHasSuffix f.name ".txt" = true
    · cases hnid : NewNotionID (removeTxt f.name) with
      | none => simp [loadCacheFiles, hreg, hsuf, hnid]
      | some nid =>
        exact absurd (by simp [relevantCacheFile, hreg, hsuf, hnid]) hrel
    · simp [loadCacheFiles, hreg, hsuf]
  · simp [loadCacheFiles, hreg]

theorem loadCacheFiles_split (files : List CacheFile) :
    ∀ idx : List (String × List RequestCacheEntry),
    (exceptIsError (loadCacheFiles files idx) = true ↔
      ∃ f ∈ files, relevantCacheFile f = true ∧
        (f.readOk = false ∨ exceptIsError (deserializeCacheEntry f.content) = true)) ∧
    loadCacheFiles files idx =
      loadCacheFiles (files.filter (fun f => relevantCacheFile f)) idx := by
  induction files with
  | nil => intro idx; simp [loadCacheFiles, exceptIsError]
  | cons f rest ih =>
    intro idx
    by_cases hrel : relevantCacheFile f = true
    · have hparts := hrel
      simp only [relevantCacheFile, Bool.and_eq_true] at hparts
      obtain ⟨⟨hreg, hsuf⟩, hnids⟩ := hparts
      obtain ⟨nid, hnid⟩ := Option.isSome_iff_exists.mp hnids
      by_cases hrd : f.readOk = true
      · cases hdes : deserializeCacheEntry f.content with
        | error e =>
          have hstep : loadCacheFiles (f :: rest) idx = .error e := by
            simp [loadCacheFiles, hreg, hsuf, hnid, hrd, hdes]
          have hstep2 :
              loadCacheFiles ((f :: rest).filter (fun f => relevantCacheFile f)) idx =
                .error e := by
            simp [List.filter_cons, hrel, loadCacheFiles, hreg, hsuf, hnid, hrd, hdes]
          refine ⟨?_, by rw [hstep, hstep2]⟩
          rw [hstep]
          simp only [exceptIsError, true_iff]
          exact ⟨f, List.mem_cons_self f rest, hrel,
            Or.inr (by simp [hdes, exceptIsError])⟩
        | ok entries =>
          have hstep : loadCacheFiles (f :: rest) idx =
              loadCacheFiles rest (aset nid.NoDashID entries idx) := by
            simp [loadCacheFiles, hreg, hsuf, hnid, hrd, hdes]
          have hstep2 :
              loadCacheFiles ((f :: rest).filter (fun f => relevantCacheFile f)) idx =
                loadCacheFiles (rest.filter (fun f => relevantCacheFile f))
                  (aset nid.NoDashID entries idx) := by
            simp [List.filter_cons, hrel, loadCacheFiles, hreg, hsuf, hnid, hrd, hdes]
          refine ⟨?_, ?_⟩
          · rw [hstep, (ih (aset nid.NoDashID entries idx)).1]
            constructor
            · rintro ⟨g, hg, hgp⟩; exact ⟨g, List.mem_cons_of_mem f hg, hgp⟩
            · rintro ⟨g, hg, hgp⟩
              rcases List.mem_cons.mp hg with hgf | hgr
              · subst hgf
                rcases hgp.2 with hbad | hbad
                · rw [hrd] at hbad; cases hbad
                · rw [hdes] at hbad; simp [exceptIsError] at hbad
              · exact ⟨g, hgr, hgp⟩
          · rw [hstep, hstep2, (ih (aset nid.NoDashID entries idx)).2]
      · have hrdf : f.readOk = false := by
          cases h : f.readOk with
          | true => exact absurd h hrd
          | false => rfl
        have hstep : loadCacheFiles (f :: rest) idx = .error "file read failed" := by
          simp [loadCacheFiles, hreg, hsuf, hnid, hrdf]
        have hstep2 :
            loadCacheFiles ((f :: rest).filter (fun f => relevantCacheFile f)) idx =
              .error "file read failed" := by
          simp [List.filter_cons, hrel, loadCacheFiles, hreg, hsuf, hnid, hrdf]
        refine ⟨?_, by rw [hstep, hstep2]⟩
        rw [hstep]
        simp only [exceptIsError, true_iff]
        exact ⟨f, List.mem_cons_self f rest, hrel, Or.inl hrdf⟩
    · have hstep := loadCacheFiles_skip f rest idx hrel
      have hfil : (f :: rest).filter (fun f => relevantCacheFile f) =
          rest.filter (fun f => relevantCacheFile f) := by
        simp [List.filter_cons, hrel]
      refine ⟨?_, ?_⟩
      · rw [hstep, (ih idx).1]
        constructor
        · rintro ⟨g, hg, hgp⟩; exact ⟨g, List.mem_cons_of_mem f hg, hgp⟩
        · rintro ⟨g, hg, hgp⟩
          rcases List.mem_cons.mp hg with hgf | hgr
          · subst hgf; exact absurd hgp.1 hrel
          · exact ⟨g, hgr, hgp⟩
      · rw [hstep, hfil, (ih idx).2]

/-- C5 (amended): loading the cache directory fails exactly on
directory-creation failure, directory-read failure, or a considered
cache file (regular, `.txt`-named, id-named) whose read fails or whose
content fails record deserialization — malformed content is an error,
not a silent exclusion; only entries that are not regular files, lack
the suffix, or whose names do not parse as identities are silently
skipped (they never influence the result at all). -/
theorem c5_load_errors (mkdirOk readDirOk : Bool) (files : List CacheFile) :
    (exceptIsError (readRequestsCacheFile mkdirOk readDirOk files) = true ↔
      mkdirOk = false ∨ readDirOk = false ∨
        ∃ f ∈ files, relevantCacheFile f = true ∧
          (f.readOk = false ∨ exceptIsError (deserializeCacheEntry f.content) = true)) ∧
    readRequestsCacheFile mkdirOk readDirOk files =
      readRequestsCacheFile mkdirOk readDirOk (files.filter (fun f => relevantCacheFile f)) := by
  cases mkdirOk with
  | false => simp [readRequestsCacheFile, exceptIsError]
  | true =>
    cases readDirOk with
    | false => simp [readRequestsCacheFile, exceptIsError]
    | true =>
      simp only [readRequestsCacheFile, not_true, if_false, Bool.true_eq_false,
        false_or]
      exact ⟨(loadCacheFiles_split files []).1, (loadCacheFiles_split files []).2⟩

/-- C5 counterexample: a well-named regular cache file whose content is
malformed (wrong record tag) makes the load fail instead of being
silently excluded. -/
theorem c5_counterexample :
    relevantCacheFile badCacheFile = true ∧
    exceptIsError (readRequestsCacheFile true true [badCacheFile]) = true := by
  decide

/-! ## Version oracle lemmas (C4) -/

theorem collectVersions_mismatch :
    ∀ (nids : List String) (results : List (Option Block)),
    (∃ p ∈ List.zip nids results, ∃ b, p.2 = some b ∧ isIDEqual p.1 b.id = false) →
    ∃ m, collectVersions nids results = .goPanic m := by
  intro nids
  induction nids with
  | nil => intro results h; rcases h with ⟨p, hp, _⟩; simp [List.zip] at hp
  | cons id ids ih =>
    intro results h
    cases results with
    | nil => rcases h with ⟨p, hp, _⟩; simp at hp
    | cons r recs =>
      rcases h with ⟨p, hp, b, hb, hne⟩
      rcases List.mem_cons.mp hp with hhead | htail
      · subst hhead
        simp only at hb hne
        cases r with
        | none => cases hb
        | some b1 =>
          have hb1 : b1 = b := by injection hb
          subst hb1
          exact ⟨"got result in the wrong order", by simp [collectVersions, hne]⟩
      · cases r with
        | none =>
          obtain ⟨m, hm⟩ := ih recs ⟨p, htail, b, hb, hne⟩
          exact ⟨m, by simp [collectVersions, hm]⟩
        | some b1 =>
          by_cases heq : isIDEqual id b1.id = true
          · obtain ⟨m, hm⟩ := ih recs ⟨p, htail, b, hb, hne⟩
            exact ⟨m, by simp [collectVersions, heq, hm]⟩
          · exact ⟨"got result in the wrong order",
              by simp [collectVersions, heq]⟩

/-- C4 (amended): getVersionsForPages returns an error whenever the
remote response does not contain exactly one result per id; but when a
non-nil result at some position has an id not equal (dash-insensitive)
to the requested id at that position, it aborts with a panic — a
process abort, not a returned error. -/
theorem c4_version_check :
    (∀ (oracle : VersionOracle) (ids : List String) (results : List (Option Block)),
      oracle (normalizeIDS ids) = .ok results → results.length ≠ ids.length →
      getVersionsForPages oracle ids = .err "getVersionsForPages: wrong result count") ∧
    (∀ (oracle : VersionOracle) (ids : List String) (results : List (Option Block)),
      oracle (normalizeIDS ids) = .ok results → results.length = ids.length →
      (∃ p ∈ List.zip (normalizeIDS ids) results,
        ∃ b, p.2 = some b ∧ isIDEqual p.1 b.id = false) →
      ∃ m, getVersionsForPages oracle ids = .goPanic m) := by
  constructor
  · intro oracle ids results hor hlen
    have hnl : (normalizeIDS ids).length = ids.length := by simp [normalizeIDS]
    simp only [getVersionsForPages, hor, hnl]
    simp [hlen]
  · intro oracle ids results hor hlen hmis
    obtain ⟨m, hm⟩ := collectVersions_mismatch (normalizeIDS ids) results hmis
    have hnl : (normalizeIDS ids).length = ids.length := by simp [normalizeIDS]
    refine ⟨m, ?_⟩
    simp only [getVersionsForPages, hor, hnl]
    simp [hlen, hm]

theorem c4_version_check_witness :
    ∃ m, getVersionsForPages misalignedOracle [pidA] = .goPanic m :=
  c4_version_check.2 misalignedOracle [pidA] [some { id := pidB, version := 3 }]
    rfl rfl
    ⟨(ToNoDashID pidA, some { id := pidB, version := 3 }), by decide,
      { id := pidB, version := 3 }, rfl, by decide⟩

/-- C4 counterexample: a response whose single result carries a
different id makes getVersionsForPages panic (abort) instead of
returning an error. -/
theorem c4_counterexample :
    getVersionsForPages misalignedOracle [pidA] = .goPanic "got result in the wrong order" := by
  decide

/-! ## Sentinel and staleness lemmas (C6) -/

theorem collectVersions_none_zero :
    ∀ (nids : List String) (results : List (Option Block)) (versions : List Int),
    collectVersions nids results = .ok versions →
    ∀ i, results.get? i = some none → versions.get? i = some 0 := by
  intro nids
  induction nids with
  | nil =>
    intro results versions h i hi
    cases results with
    | nil => simp at hi
    | cons r recs => simp [collectVersions] at h
  | cons id ids ih =>
    intro results versions h i hi
    cases results with
    | nil => simp at hi
    | cons r recs =>
      cases r with
      | none =>
        cases htl : collectVersions ids recs with
        | ok vs =>
          have hv : versions = 0 :: vs := by
            simp [collectVersions, htl] at h
            exact h.symm
          subst hv
          cases i with
          | zero => rfl
          | succ j => exact ih recs vs htl j (by simpa using hi)
        | err m => simp [collectVersions, htl] at h
        | goPanic m => simp [collectVersions, htl] at h
      | some b =>
        by_cases heq : isIDEqual id b.id = true
        · cases htl : collectVersions ids recs with
          | ok vs =>
            have hv : versions = b.version :: vs := by
              simp [collectVersions, heq, htl] at h
              exact h.symm
            subst hv
            cases i with
            | zero => simp at hi
            | succ j => exact ih recs vs htl j (by simpa using hi)
          | err m => simp [collectVersions, heq, htl] at h
          | goPanic m => simp [collectVersions, heq, htl] at h
        · simp [collectVersions, heq] at h

/-- C6 (amended): an id whose result carries no block record is
reported at the sentinel version 0 by getVersionsForPages.  With
RedownloadNewerVersions on, canReturnCachedPage accepts a non-nil page
exactly when its root version is at least the recorded latest version
for its no-dash id, populating the entry by a single-id oracle call
when missing and rejecting the page when that call fails; with the mode
off every non-nil page is accepted regardless of recorded versions, and
a nil page is always rejected.  In particular a page with version at
least 1 is never judged stale because of the sentinel 0. -/
theorem c6_sentinel_staleness :
    (∀ (oracle : VersionOracle) (ids : List String) (results : List (Option Block))
        (versions : List Int),
      oracle (normalizeIDS ids) = .ok results →
      getVersionsForPages oracle ids = .ok versions →
      ∀ i, results.get? i = some none → versions.get? i = some 0) ∧
    (∀ (oracle : VersionOracle) (s : CCState),
      canReturnCachedPage oracle s none = .ok (false, s)) ∧
    (∀ (oracle : VersionOracle) (s : CCState) (page : Page),
      s.redownloadNewerVersions = false →
      canReturnCachedPage oracle s (some page) = .ok (true, s)) ∧
    (∀ (oracle : VersionOracle) (s : CCState) (page : Page) (v : Int),
      s.redownloadNewerVersions = true →
      alookup (ToNoDashID page.id) s.idToPageLatestVersion = some v →
      canReturnCachedPage oracle s (some page) = .ok (decide (page.version ≥ v), s)) ∧
    (∀ (oracle : VersionOracle) (s s1 : CCState) (page : Page),
      s.redownloadNewerVersions = true →
      alookup (ToNoDashID page.id) s.idToPageLatestVersion = none →
      updateVersionsForPages oracle s [ToNoDashID page.id] = .ok (none, s1) →
      canReturnCachedPage oracle s (some page) =
        .ok (decide (page.version ≥
          (alookup (ToNoDashID page.id) s1.idToPageLatestVersion).getD 0), s1)) ∧
    (∀ (oracle : VersionOracle) (s s1 : CCState) (page : Page) (e : String),
      s.redownloadNewerVersions = true →
      alookup (ToNoDashID page.id) s.idToPageLatestVersion = none →
      updateVersionsForPages oracle s [ToNoDashID page.id] = .ok (some e, s1) →
      canReturnCachedPage oracle s (some page) = .ok (false, s1)) ∧
    (∀ (oracle : VersionOracle) (s : CCState) (page : Page),
      s.redownloadNewerVersions = true →
      alookup (ToNoDashID page.id) s.idToPageLatestVersion = some 0 →
      1 ≤ page.version →
      canReturnCachedPage oracle s (some page) = .ok (true, s)) := by
  refine ⟨?_, ?_, ?_, ?_, ?_, ?_, ?_⟩
  · intro oracle ids results versions hor hok i hi
    have hnl : (normalizeIDS ids).length = ids.length := by simp [normalizeIDS]
    by_cases hlen : results.length = ids.length
    · have hcol : collectVersions (normalizeIDS ids) results = .ok versions := by
        simp only [getVersionsForPages, hor, hnl] at hok
        simpa [hlen] using hok
      exact collectVersions_none_zero (normalizeIDS ids) results versions hcol i hi
    · simp only [getVersionsForPages, hor, hnl] at hok
      simp [hlen] at hok
  · intro oracle s; rfl
  · intro oracle s page hred
    simp [canReturnCachedPage, hred]
  · intro oracle s page v hred hl
    simp [canReturnCachedPage, hred, hl]
  · intro oracle s s1 page hred hl hup
    simp [canReturnCachedPage, hred, hl, hup]
  · intro oracle s s1 page e hred hl hup
    simp [canReturnCachedPage, hred, hl, hup]
  · intro oracle s page hred hl hv
    have h0 : page.version ≥ (0 : Int) := le_trans (by norm_num) hv
    simp [canReturnCachedPage, hred, hl, h0]

theorem c6_sentinel_staleness_witness :
    canReturnCachedPage noOracle c6wstate (some c6wpage) = .ok (true, c6wstate) :=
  c6_sentinel_staleness.2.2.2.2.2.2 noOracle c6wstate c6wpage rfl (by decide) (by decide)

/-- C6 counterexample: with freshness mode off, a non-nil page whose
version 1 is below the recorded latest version 5 is still accepted, so
acceptance is not equivalent to being at least the recorded latest. -/
theorem c6_counterexample :
    canReturnCachedPage noOracle c6state (some c6page) = .ok (true, c6state) ∧
    alookup (ToNoDashID c6page.id) c6state.idToPageLatestVersion = some 5 ∧
    ¬ c6page.version ≥ (5 : Int) := by
  refine ⟨rfl, by decide, by decide⟩

/-! ## Download trace lemmas (C2, C7) -/

theorem tryReadFromCache_eq (s : CCState) (nid : NotionID)
    (h : s.currPageID = some nid) (m u b : String) :
    tryReadFromCache s m u b =
      lookupEntries ((alookup nid.NoDashID s.pageIDToEntries).getD [])
        s.noReadCache m u b := by
  simp [tryReadFromCache, lookupEntries, h]

theorem runDownload_trace (plan : FetchPlan)
    (net : String → String → Except String String) (nid : NotionID) :
    ∀ (fuel : Nat) (s : CCState) (acc : List String), s.currPageID = some nid →
    runDownload plan net fuel s acc =
      ((pureTrace plan net fuel ((alookup nid.NoDashID s.pageIDToEntries).getD [])
          s.noReadCache acc).1,
       { s with
         reqFromCache := s.reqFromCache +
           (pureTrace plan net fuel ((alookup nid.NoDashID s.pageIDToEntries).getD [])
             s.noReadCache acc).2.1,
         reqNotFromCache := s.reqNotFromCache +
           (pureTrace plan net fuel ((alookup nid.NoDashID s.pageIDToEntries).getD [])
             s.noReadCache acc).2.2.1,
         currPageRequests := s.currPageRequests ++
           (pureTrace plan net fuel ((alookup nid.NoDashID s.pageIDToEntries).getD [])
             s.noReadCache acc).2.2.2 }) := by
  intro fuel
  induction fuel with
  | zero => intro s acc hpid; simp [runDownload, pureTrace]
  | succ fuel ih =>
    intro s acc hpid
    cases hplan : plan acc with
    | none => simp [runDownload, pureTrace, hplan]
    | some ub =>
      obtain ⟨uri, body⟩ := ub
      have htr := tryReadFromCache_eq s nid hpid "POST" uri body
      cases hlk : lookupEntries ((alookup nid.NoDashID s.pageIDToEntries).getD [])
          s.noReadCache "POST" uri body with
      | some d =>
        have ih1 := ih { s with reqFromCache := s.reqFromCache + 1 } (acc ++ [d]) hpid
        simp only [runDownload, pureTrace, hplan, doPostMaybeCached, htr, hlk]
        rw [ih1]
        simp [Nat.add_assoc, Nat.add_comm, Nat.add_left_comm]
      | none =>
        cases hnet : net uri body with
        | error e =>
          simp only [runDownload, pureTrace, hplan, doPostMaybeCached, htr, hlk, hnet]
          simp
        | ok d =>
          have ih1 := ih
            { s with reqNotFromCache := s.reqNotFromCache + 1,
                     currPageRequests := s.currPageRequests ++
                       [{ Method := "POST", URL := uri, Body := body, Response := d }] }
            (acc ++ [d]) hpid
          rw [hpid] at ih1
          simp only [runDownload, pureTrace, hplan, doPostMaybeCached, htr, hlk, hnet,
            cacheRequest, hpid]
          rw [ih1]
          simp [Nat.add_assoc, Nat.add_comm, Nat.add_left_comm, List.append_assoc]

theorem flush_frame (wok : Bool) (s : CCState) :
    (writeCacheForCurrPage wok s).2.pageIDToEntries = s.pageIDToEntries ∧
    (writeCacheForCurrPage wok s).2.noReadCache = s.noReadCache ∧
    (writeCacheForCurrPage wok s).2.reqFromCache = s.reqFromCache ∧
    (writeCacheForCurrPage wok s).2.reqNotFromCache = s.reqNotFromCache ∧
    (writeCacheForCurrPage wok s).2.currPageID = s.currPageID ∧
    (writeCacheForCurrPage wok s).2.redownloadNewerVersions = s.redownloadNewerVersions ∧
    (writeCacheForCurrPage wok s).2.idToPageLatestVersion = s.idToPageLatestVersion ∧
    (writeCacheForCurrPage wok s).2.httpPostOverride = s.httpPostOverride := by
  by_cases hp : s.currPageRequests = []
  · simp [writeCacheForCurrPage, hp]
  · cases hcp : s.currPageID with
    | none => simp [writeCacheForCurrPage, hp, serializeAll_eq, hcp]
    | some nid => cases wok <;> simp [writeCacheForCurrPage, hp, serializeAll_eq, hcp]

theorem flush_pageIDToEntries (wok : Bool) (s : CCState) :
    (writeCacheForCurrPage wok s).2.pageIDToEntries = s.pageIDToEntries :=
  (flush_frame wok s).1

theorem flush_noReadCache (wok : Bool) (s : CCState) :
    (writeCacheForCurrPage wok s).2.noReadCache = s.noReadCache :=
  (flush_frame wok s).2.1

theorem flush_reqFromCache (wok : Bool) (s : CCState) :
    (writeCacheForCurrPage wok s).2.reqFromCache = s.reqFromCache :=
  (flush_frame wok s).2.2.1

theorem flush_reqNotFromCache (wok : Bool) (s : CCState) :
    (writeCacheForCurrPage wok s).2.reqNotFromCache = s.reqNotFromCache :=
  (flush_frame wok s).2.2.2.1

theorem flush_currPageID (wok : Bool) (s : CCState) :
    (writeCacheForCurrPage wok s).2.currPageID = s.currPageID :=
  (flush_frame wok s).2.2.2.2.1

theorem flush_redownload (wok : Bool) (s : CCState) :
    (writeCacheForCurrPage wok s).2.redownloadNewerVersions = s.redownloadNewerVersions :=
  (flush_frame wok s).2.2.2.2.2.1

theorem flush_latestVersions (wok : Bool) (s : CCState) :
    (writeCacheForCurrPage wok s).2.idToPageLatestVersion = s.idToPageLatestVersion :=
  (flush_frame wok s).2.2.2.2.2.2.1

theorem flush_override (wok : Bool) (s : CCState) :
    (writeCacheForCurrPage wok s).2.httpPostOverride = s.httpPostOverride :=
  (flush_frame wok s).2.2.2.2.2.2.2

theorem flush_clears (s : CCState) (nid : NotionID) (h : s.currPageID = some nid) :
    (writeCacheForCurrPage true s).2.currPageRequests = [] := by
  by_cases hp : s.currPageRequests = []
  · simp [writeCacheForCurrPage, hp]
  · simp [writeCacheForCurrPage, hp, serializeAll_eq, h]

theorem downloadPage_valid (plan : FetchPlan)
    (net : String → String → Except String String) (wok : Bool) (fuel : Nat)
    (s : CCState) (pageID : String) (nid : NotionID)
    (h : NewNotionID pageID = some nid) :
    (downloadPage plan net wok fuel s pageID).1 =
      (pureTrace plan net fuel ((alookup nid.NoDashID s.pageIDToEntries).getD [])
        s.noReadCache []).1 ∧
    (downloadPage plan net wok fuel s pageID).2.pageIDToEntries = s.pageIDToEntries ∧
    (downloadPage plan net wok fuel s pageID).2.noReadCache = s.noReadCache ∧
    (downloadPage plan net wok fuel s pageID).2.redownloadNewerVersions =
      s.redownloadNewerVersions ∧
    (downloadPage plan net wok fuel s pageID).2.reqFromCache = s.reqFromCache +
      (pureTrace plan net fuel ((alookup nid.NoDashID s.pageIDToEntries).getD [])
        s.noReadCache []).2.1 ∧
    (downloadPage plan net wok fuel s pageID).2.reqNotFromCache = s.reqNotFromCache +
      (pureTrace plan net fuel ((alookup nid.NoDashID s.pageIDToEntries).getD [])
        s.noReadCache []).2.2.1 ∧
    (downloadPage plan net wok fuel s pageID).2.httpPostOverride = s.httpPostOverride ∧
    (downloadPage plan net wok fuel s pageID).2.currPageID = none := by
  have htr := runDownload_trace plan net nid fuel
    { s with currPageRequests := [], currPageID := some nid,
             httpPostOverride := overrideTag } [] rfl
  simp only [downloadPage, h]
  rw [htr]
  simp [flush_pageIDToEntries, flush_noReadCache, flush_reqFromCache,
    flush_reqNotFromCache, flush_redownload]

/-- C7: an input failing identity parsing yields an invalid-identity
error whose result does not depend on the transport, the fetch plan,
the fuel or the write outcome (no network contact), and changes nothing
but resetting the in-memory pending list and the current-page scope —
cache index, files, counters and version map are untouched; for a valid
id, whatever the delegated download's outcome, the pending records are
flushed for that page, the previous httpPostOverride is restored and
the current-page scope is cleared before returning. -/
theorem c7_download_page :
    (∀ (plan : FetchPlan) (net : String → String → Except String String)
        (wok : Bool) (fuel : Nat) (s : CCState) (pageID : String),
      NewNotionID pageID = none →
      downloadPage plan net wok fuel s pageID =
        (.error (.invalidID pageID),
          { s with currPageRequests := [], currPageID := none }) ∧
      ∀ (plan2 : FetchPlan) (net2 : String → String → Except String String)
          (wok2 : Bool) (fuel2 : Nat),
        downloadPage plan2 net2 wok2 fuel2 s pageID =
          downloadPage plan net wok fuel s pageID) ∧
    (∀ (plan : FetchPlan) (net : String → String → Except String String)
        (wok : Bool) (fuel : Nat) (s : CCState) (pageID : String) (nid : NotionID),
      NewNotionID pageID = some nid →
      (downloadPage plan net wok fuel s pageID).1 =
        (runDownload plan net fuel
          { s with currPageRequests := [], currPageID := some nid,
                   httpPostOverride := overrideTag } []).1 ∧
      (downloadPage plan net wok fuel s pageID).2 =
        { (writeCacheForCurrPage wok
            (runDownload plan net fuel
              { s with currPageRequests := [], currPageID := some nid,
                       httpPostOverride := overrideTag } []).2).2 with
          httpPostOverride := s.httpPostOverride, currPageID := none } ∧
      (downloadPage plan net wok fuel s pageID).2.httpPostOverride =
        s.httpPostOverride ∧
      (downloadPage plan net wok fuel s pageID).2.currPageID = none ∧
      (wok = true →
        (downloadPage plan net wok fuel s pageID).2.currPageRequests = [])) := by
  constructor
  · intro plan net wok fuel s pageID h
    constructor
    · simp [downloadPage, h]
    · intro plan2 net2 wok2 fuel2
      simp [downloadPage, h]
  · intro plan net wok fuel s pageID nid h
    have hcp : (runDownload plan net fuel
        { s with currPageRequests := [], currPageID := some nid,
                 httpPostOverride := overrideTag } []).2.currPageID = some nid := by
      rw [runDownload_trace plan net nid fuel _ [] rfl]
    rcases hX : runDownload plan net fuel
        { s with currPageRequests := [], currPageID := some nid,
                 httpPostOverride := overrideTag } [] with ⟨res, s2⟩
    rw [hX] at hcp
    simp only at hcp
    rcases hW : writeCacheForCurrPage wok s2 with ⟨we, s3⟩
    refine ⟨?_, ?_, ?_, ?_, ?_⟩
    · simp [downloadPage, h, hX, hW]
    · simp [downloadPage, h, hX, hW]
    · simp [downloadPage, h, hX, hW]
    · simp [downloadPage, h, hX, hW]
    · intro hwok
      subst hwok
      have h3 : s3 = (writeCacheForCurrPage true s2).2 := by rw [hW]
      have hclr := flush_clears s2 nid hcp
      rw [← h3] at hclr
      simp [downloadPage, h, hX, hW, hclr]

theorem c7_download_page_witness :
    (downloadPage onePostPlan constNet true 2 s0 "not-an-id" =
      (.error (.invalidID "not-an-id"),
        { s0 with currPageRequests := [], currPageID := none })) ∧
    (downloadPage onePostPlan constNet true 2 s0 pidA).2.httpPostOverride =
      s0.httpPostOverride ∧
    (downloadPage onePostPlan constNet true 2 s0 pidA).2.currPageID = none ∧
    (downloadPage onePostPlan constNet true 2 s0 pidA).2.currPageRequests = [] :=
  ⟨(c7_download_page.1 onePostPlan constNet true 2 s0 "not-an-id" (by decide)).1,
   (c7_download_page.2 onePostPlan constNet true 2 s0 pidA ⟨pidA⟩ (by decide)).2.2.1,
   (c7_download_page.2 onePostPlan constNet true 2 s0 pidA ⟨pidA⟩ (by decide)).2.2.2.1,
   (c7_download_page.2 onePostPlan constNet true 2 s0 pidA ⟨pidA⟩ (by decide)).2.2.2.2 rfl⟩

/-- C2 (amended): with read cache enabled and freshness off, a second
DownloadPage of the same valid page id within one session returns
byte-identical responses, but issues the same live requests again
rather than zero: RequestsNotFromCache grows by the same amount as on
the first call, because records cached during the first download are
written to disk, not to the in-memory index that lookups consult — they
become visible only to a later session that reloads the directory. -/
theorem c2_second_download (plan : FetchPlan)
    (net : String → String → Except String String) (wok : Bool) (fuel : Nat)
    (s : CCState) (pageID : String) (nid : NotionID)
    (hid : NewNotionID pageID = some nid) (hnr : s.noReadCache = false)
    (hrd : s.redownloadNewerVersions = false) :
    (downloadPage plan net wok fuel
        (downloadPage plan net wok fuel s pageID).2 pageID).1 =
      (downloadPage plan net wok fuel s pageID).1 ∧
    ∃ n, (downloadPage plan net wok fuel s pageID).2.reqNotFromCache =
          s.reqNotFromCache + n ∧
        (downloadPage plan net wok fuel
            (downloadPage plan net wok fuel s pageID).2 pageID).2.reqNotFromCache =
          (downloadPage plan net wok fuel s pageID).2.reqNotFromCache + n := by
  obtain ⟨h1res, h1idx, h1nr, h1rd, h1fc, h1nf, h1ov, h1cp⟩ :=
    downloadPage_valid plan net wok fuel s pageID nid hid
  obtain ⟨h2res, h2idx, h2nr, h2rd, h2fc, h2nf, h2ov, h2cp⟩ :=
    downloadPage_valid plan net wok fuel
      (downloadPage plan net wok fuel s pageID).2 pageID nid hid
  rw [h1idx, h1nr] at h2res h2nf
  exact ⟨h2res.trans h1res.symm, _, h1nf, h2nf⟩

theorem c2_second_download_witness :
    (downloadPage onePostPlan constNet true 2
        (downloadPage onePostPlan constNet true 2 s0 pidA).2 pidA).1 =
      (downloadPage onePostPlan constNet true 2 s0 pidA).1 ∧
    ∃ n, (downloadPage onePostPlan constNet true 2 s0 pidA).2.reqNotFromCache =
          s0.reqNotFromCache + n ∧
        (downloadPage onePostPlan constNet true 2
            (downloadPage onePostPlan constNet true 2 s0 pidA).2 pidA).2.reqNotFromCache =
          (downloadPage onePostPlan constNet true 2 s0 pidA).2.reqNotFromCache + n :=
  c2_second_download onePostPlan constNet true 2 s0 pidA ⟨pidA⟩ (by decide) rfl rfl

/-- C2 counterexample: with read cache enabled and freshness off, the
second in-session download of the same valid page issues its live
request again — RequestsNotFromCache rises from 1 to 2 instead of
staying at 1. -/
theorem c2_counterexample :
    (downloadPage onePostPlan constNet true 2 s0 pidA).2.reqNotFromCache = 1 ∧
    (downloadPage onePostPlan constNet true 2
        (downloadPage onePostPlan constNet true 2 s0 pidA).2 pidA).2.reqNotFromCache = 2 := by
  decide

/-! ## Text-span parser lemmas (C9) -/

theorem collectAttrStrings_bad :
    ∀ (vals : List GoVal) (v : GoVal), v ∈ vals → v.isStr = false →
    ∃ e, collectAttrStrings vals = .error e := by
  intro vals
  induction vals with
  | nil => intro v hv; simp at hv
  | cons x rest ih =>
    intro v hv hns
    rcases List.mem_cons.mp hv with h | h
    · subst h
      cases v with
      | str s => simp [GoVal.isStr] at hns
      | vnil => exact ⟨_, rfl⟩
      | list xs => exact ⟨_, rfl⟩
      | vmap m => exact ⟨_, rfl⟩
      | other => exact ⟨_, rfl⟩
    · obtain ⟨e, he⟩ := ih v h hns
      cases x with
      | str s => exact ⟨e, by simp [collectAttrStrings, he]⟩
      | vnil => exact ⟨_, rfl⟩
      | list xs => exact ⟨_, rfl⟩
      | vmap m => exact ⟨_, rfl⟩
      | other => exact ⟨_, rfl⟩

theorem parseTextSpanAttributes_bad :
    ∀ (attrs : List GoVal),
    ((∃ x ∈ attrs, x.isList = false) ∨
      (∃ al, GoVal.list al ∈ attrs ∧
        ∀ b1 : TextSpan, exceptIsError (parseTextSpanAttribute b1 al) = true)) →
    ∀ b : TextSpan, exceptIsError (parseTextSpanAttributes b attrs) = true := by
  intro attrs
  induction attrs with
  | nil =>
    rintro (⟨x, hx, _⟩ | ⟨al, hal, _⟩)
    · simp at hx
    · simp at hal
  | cons x rest ih =>
    intro hbad b
    cases x with
    | list al =>
      cases hpa : parseTextSpanAttribute b al with
      | error e => simp [parseTextSpanAttributes, hpa, exceptIsError]
      | ok b1 =>
        have hrest : (∃ y ∈ rest, y.isList = false) ∨
            (∃ al2, GoVal.list al2 ∈ rest ∧
              ∀ b2 : TextSpan, exceptIsError (parseTextSpanAttribute b2 al2) = true) := by
          rcases hbad with ⟨y, hy, hyl⟩ | ⟨al2, hal2, hae⟩
          · rcases List.mem_cons.mp hy with h | h
            · subst h; simp [GoVal.isList] at hyl
            · exact Or.inl ⟨y, h, hyl⟩
          · rcases List.mem_cons.mp hal2 with h | h
            · have hal2eq : al2 = al := by injection h
              subst hal2eq
              have hcontra := hae b
              rw [hpa] at hcontra
              simp [exceptIsError] at hcontra
            · exact Or.inr ⟨al2, h, hae⟩
        simpa [parseTextSpanAttributes, hpa] using ih hrest b1
    | vnil => simp [parseTextSpanAttributes, exceptIsError]
    | str s => simp [parseTextSpanAttributes, exceptIsError]
    | vmap m => simp [parseTextSpanAttributes, exceptIsError]
    | other => simp [parseTextSpanAttributes, exceptIsError]

theorem parseSpanList_bad :
    ∀ (xs : List GoVal),
    ((∃ v ∈ xs, v.isList = false) ∨
      (∃ a2, GoVal.list a2 ∈ xs ∧ exceptIsError (parseTextSpan a2) = true)) →
    exceptIsError (parseSpanList xs) = true := by
  intro xs
  induction xs with
  | nil =>
    rintro (⟨v, hv, _⟩ | ⟨a2, ha2, _⟩)
    · simp at hv
    · simp at ha2
  | cons x rest ih =>
    intro hbad
    cases x with
    | list a2 =>
      cases hps : parseTextSpan a2 with
      | error e => simp [parseSpanList, hps, exceptIsError]
      | ok span =>
        have hrest : (∃ v ∈ rest, v.isList = false) ∨
            (∃ a3, GoVal.list a3 ∈ rest ∧ exceptIsError (parseTextSpan a3) = true) := by
          rcases hbad with ⟨v, hv, hvl⟩ | ⟨a3, ha3, hae⟩
          · rcases List.mem_cons.mp hv with h | h
            · subst h; simp [GoVal.isList] at hvl
            · exact Or.inl ⟨v, h, hvl⟩
          · rcases List.mem_cons.mp ha3 with h | h
            · have ha3eq : a3 = a2 := by injection h
              subst ha3eq
              rw [hps] at hae
              simp [exceptIsError] at hae
            · exact Or.inr ⟨a3, h, hae⟩
        have := ih hrest
        cases hrem : parseSpanList rest with
        | error e => simp [parseSpanList, hps, hrem, exceptIsError]
        | ok spans => rw [hrem] at this; simp [exceptIsError] at this
    | vnil => simp [parseSpanList, exceptIsError]
    | str s => simp [parseSpanList, exceptIsError]
    | vmap m => simp [parseSpanList, exceptIsError]
    | other => simp [parseSpanList, exceptIsError]

theorem ParseTextSpans_list_err (xs : List GoVal)
    (h : exceptIsError (parseSpanList xs) = true) :
    exceptIsError (ParseTextSpans (.list xs)) = true := by
  cases xs with
  | nil => simp [parseSpanList, exceptIsError] at h
  | cons x rest => simpa [ParseTextSpans] using h

theorem attr_bad_nonstr (k : String) (vals : List GoVal) (v : GoVal)
    (hk : k ≠ Attr2Date) (hv : v ∈ vals) (hns : v.isStr = false) :
    ∀ b : TextSpan, exceptIsError (parseTextSpanAttribute b (.str k :: vals)) = true := by
  intro b
  obtain ⟨e, he⟩ := collectAttrStrings_bad vals v hv hns
  simp [parseTextSpanAttribute, hk, he, exceptIsError]

theorem attr_bad_date (vals : List GoVal)
    (h : ∀ m, vals ≠ [GoVal.vmap m]) :
    ∀ b : TextSpan, exceptIsError (parseTextSpanAttribute b (.str Attr2Date :: vals)) = true := by
  intro b
  cases vals with
  | nil => rfl
  | cons v vtl =>
    cases vtl with
    | nil =>
      cases v with
      | vmap m => exact absurd rfl (h m)
      | vnil => rfl
      | str s => rfl
      | list xs => rfl
      | other => rfl
    | cons w wtl => rfl

theorem parseTextSpanAttribute_shape (b b1 : TextSpan) (a : List GoVal)
    (h : parseTextSpanAttribute b a = .ok b1)
    (hb : ∀ t ∈ b.Attrs, t ≠ [] ∧ (t.head? = some Attr2Date → t.length = 2)) :
    ∀ t ∈ b1.Attrs, t ≠ [] ∧ (t.head? = some Attr2Date → t.length = 2) := by
  cases a with
  | nil => simp [parseTextSpanAttribute] at h
  | cons a0 rest =>
    cases a0 with
    | str s =>
      by_cases hs : s = Attr2Date
      · subst hs
        cases rest with
        | nil => simp [parseTextSpanAttribute] at h
        | cons v vtl =>
          cases vtl with
          | nil =>
            cases v with
            | vmap m =>
              rw [parseTextSpanAttribute] at h
              rw [if_pos rfl] at h
              have h2 : (⟨b.Text, b.Attrs ++ [[Attr2Date, marshalDateMap m]]⟩ : TextSpan) = b1 := by
                injection h
              subst h2
              intro t ht
              rcases List.mem_append.mp ht with hmem | hmem
              · exact hb t hmem
              · have ht2 : t = [Attr2Date, marshalDateMap m] := by simpa using hmem
                subst ht2
                exact ⟨by simp, fun _ => rfl⟩
            | vnil => simp [parseTextSpanAttribute] at h
            | str s2 => simp [parseTextSpanAttribute] at h
            | list xs => simp [parseTextSpanAttribute] at h
            | other => simp [parseTextSpanAttribute] at h
          | cons w wtl => simp [parseTextSpanAttribute] at h
      · cases hc : collectAttrStrings rest with
        | error e => simp [parseTextSpanAttribute, hs, hc] at h
        | ok strs =>
          simp only [parseTextSpanAttribute, if_neg hs, hc, Except.ok.injEq] at h
          subst h
          intro t ht
          rcases List.mem_append.mp ht with hmem | hmem
          · exact hb t hmem
          · have ht2 : t = s :: strs := by simpa using hmem
            subst ht2
            refine ⟨by simp, fun hd => ?_⟩
            have : s = Attr2Date := by simpa using hd
            exact absurd this hs
    | vnil => simp [parseTextSpanAttribute] at h
    | list xs => simp [parseTextSpanAttribute] at h
    | vmap m => simp [parseTextSpanAttribute] at h
    | other => simp [parseTextSpanAttribute] at h

theorem parseTextSpanAttributes_shape :
    ∀ (attrs : List GoVal) (b b1 : TextSpan),
    parseTextSpanAttributes b attrs = .ok b1 →
    (∀ t ∈ b.Attrs, t ≠ [] ∧ (t.head? = some Attr2Date → t.length = 2)) →
    ∀ t ∈ b1.Attrs, t ≠ [] ∧ (t.head? = some Attr2Date → t.length = 2) := by
  intro attrs
  induction attrs with
  | nil =>
    intro b b1 h hb
    have hbb : b = b1 := by simpa [parseTextSpanAttributes] using h
    subst hbb; exact hb
  | cons x rest ih =>
    intro b b1 h hb
    cases x with
    | list al =>
      cases hpa : parseTextSpanAttribute b al with
      | error e => simp [parseTextSpanAttributes, hpa] at h
      | ok b2 =>
        simp only [parseTextSpanAttributes, hpa] at h
        exact ih b2 b1 h (parseTextSpanAttribute_shape b b2 al hpa hb)
    | vnil => simp [parseTextSpanAttributes] at h
    | str s => simp [parseTextSpanAttributes] at h
    | vmap m => simp [parseTextSpanAttributes] at h
    | other => simp [parseTextSpanAttributes] at h

theorem parseTextSpan_shape (a : List GoVal) (span : TextSpan)
    (h : parseTextSpan a = .ok span) :
    ∀ t ∈ span.Attrs, t ≠ [] ∧ (t.head? = some Attr2Date → t.length = 2) := by
  cases a with
  | nil => simp [parseTextSpan] at h
  | cons x tl =>
    cases tl with
    | nil =>
      cases x with
      | str s =>
        have hsp : span = { Text := s, Attrs := [] } := by
          simpa [parseTextSpan] using h.symm
        subst hsp; simp
      | vnil => simp [parseTextSpan] at h
      | list xs => simp [parseTextSpan] at h
      | vmap m => simp [parseTextSpan] at h
      | other => simp [parseTextSpan] at h
    | cons y tl2 =>
      cases tl2 with
      | nil =>
        cases x with
        | str s =>
          cases y with
          | list attrs =>
            have h2 : parseTextSpanAttributes { Text := s, Attrs := [] } attrs = .ok span := h
            exact parseTextSpanAttributes_shape attrs { Text := s, Attrs := [] } span h2
              (by simp)
          | vnil => simp [parseTextSpan] at h
          | str s2 => simp [parseTextSpan] at h
          | vmap m => simp [parseTextSpan] at h
          | other => simp [parseTextSpan] at h
        | vnil => simp [parseTextSpan] at h
        | list xs => simp [parseTextSpan] at h
        | vmap m => simp [parseTextSpan] at h
        | other => simp [parseTextSpan] at h
      | cons z tl3 => simp [parseTextSpan] at h

theorem parseSpanList_shape :
    ∀ (xs : List GoVal) (spans : List TextSpan),
    parseSpanList xs = .ok spans →
    ∀ span ∈ spans, ∀ t ∈ span.Attrs,
      t ≠ [] ∧ (t.head? = some Attr2Date → t.length = 2) := by
  intro xs
  induction xs with
  | nil =>
    intro spans h
    have hsp : spans = [] := by simpa [parseSpanList] using h.symm
    subst hsp; simp
  | cons x rest ih =>
    intro spans h
    cases x with
    | list a2 =>
      cases hps : parseTextSpan a2 with
      | error e => simp [parseSpanList, hps] at h
      | ok span0 =>
        cases hrem : parseSpanList rest with
        | error e => simp [parseSpanList, hps, hrem] at h
        | ok spans0 =>
          have hsp : spans = span0 :: spans0 := by
            simpa [parseSpanList, hps, hrem] using h.symm
          subst hsp
          intro span hmem
          rcases List.mem_cons.mp hmem with hsp0 | hsp0
          · subst hsp0; exact parseTextSpan_shape a2 span hps
          · exact ih spans0 hrem span hsp0
    | vnil => simp [parseSpanList] at h
    | str s => simp [parseSpanList] at h
    | vmap m => simp [parseSpanList] at h
    | other => simp [parseSpanList] at h

/-- C9 (amended): for every raw input whose shape is wrong — not a list
of lists (except the nil input, which yields no spans and no error), a
span entry of length other than 1 or 2, a non-string first element, a
non-string simple attribute value, or a date attribute whose second
value is not a map or whose length is not 2 — ParseTextSpans returns an
error rather than aborting; and each successfully parsed attribute
keeps only the fields of its own kind: a date attribute is exactly the
kind tag plus the marshaled map, any other kind is the kind tag plus
the trailing string values, and on success every attribute is non-empty
with date attributes of length exactly 2. -/
theorem c9_parse_text_spans :
    (∀ raw : GoVal, raw ≠ .vnil → raw.isList = false →
      exceptIsError (ParseTextSpans raw) = true) ∧
    (∀ (xs : List GoVal) (v : GoVal), v ∈ xs → v.isList = false →
      exceptIsError (ParseTextSpans (.list xs)) = true) ∧
    (∀ (xs : List GoVal) (ys : List GoVal), GoVal.list ys ∈ xs →
      ys.length = 0 ∨ 2 < ys.length →
      exceptIsError (ParseTextSpans (.list xs)) = true) ∧
    (∀ (xs : List GoVal) (y : GoVal) (ytl : List GoVal),
      GoVal.list (y :: ytl) ∈ xs → y.isStr = false →
      exceptIsError (ParseTextSpans (.list xs)) = true) ∧
    (∀ (xs : List GoVal) (t : String) (attrs : List GoVal) (k : String)
        (vals : List GoVal) (v : GoVal),
      GoVal.list [.str t, .list attrs] ∈ xs →
      GoVal.list (.str k :: vals) ∈ attrs → k ≠ Attr2Date →
      v ∈ vals → v.isStr = false →
      exceptIsError (ParseTextSpans (.list xs)) = true) ∧
    (∀ (xs : List GoVal) (t : String) (attrs : List GoVal) (vals : List GoVal),
      GoVal.list [.str t, .list attrs] ∈ xs →
      GoVal.list (.str Attr2Date :: vals) ∈ attrs →
      (∀ m, vals ≠ [GoVal.vmap m]) →
      exceptIsError (ParseTextSpans (.list xs)) = true) ∧
    (∀ (b : TextSpan) (t : String) (rest : List GoVal), t ≠ Attr2Date →
      parseTextSpanAttribute b (.str t :: rest) =
        (match collectAttrStrings rest with
         | .ok strs => .ok { b with Attrs := b.Attrs ++ [t :: strs] }
         | .error e => .error e)) ∧
    (∀ (b : TextSpan) (m : List (String × GoVal)),
      parseTextSpanAttribute b [.str Attr2Date, .vmap m] =
        .ok { b with Attrs := b.Attrs ++ [[Attr2Date, marshalDateMap m]] }) ∧
    (∀ (raw : GoVal) (spans : List TextSpan), ParseTextSpans raw = .ok spans →
      ∀ span ∈ spans, ∀ attr ∈ span.Attrs,
        attr ≠ [] ∧ (attr.head? = some Attr2Date → attr.length = 2)) := by
  refine ⟨?_, ?_, ?_, ?_, ?_, ?_, ?_, ?_, ?_⟩
  · intro raw hnil hlist
    cases raw with
    | vnil => exact absurd rfl hnil
    | list xs => simp [GoVal.isList] at hlist
    | str s => rfl
    | vmap m => rfl
    | other => rfl
  · intro xs v hv hvl
    exact ParseTextSpans_list_err xs (parseSpanList_bad xs (Or.inl ⟨v, hv, hvl⟩))
  · intro xs ys hmem hlen
    refine ParseTextSpans_list_err xs (parseSpanList_bad xs (Or.inr ⟨ys, hmem, ?_⟩))
    rcases hlen with h0 | h3
    · have : ys = [] := List.length_eq_zero.mp h0
      subst this; rfl
    · cases ys with
      | nil => simp at h3
      | cons y1 tl1 =>
        cases tl1 with
        | nil => simp at h3
        | cons y2 tl2 =>
          cases tl2 with
          | nil => simp at h3
          | cons y3 tl3 => rfl
  · intro xs y ytl hmem hns
    refine ParseTextSpans_list_err xs (parseSpanList_bad xs (Or.inr ⟨y :: ytl, hmem, ?_⟩))
    cases ytl with
    | nil =>
      cases y with
      | str s => simp [GoVal.isStr] at hns
      | vnil => rfl
      | list zs => rfl
      | vmap m => rfl
      | other => rfl
    | cons z ztl =>
      cases ztl with
      | nil =>
        cases y with
        | str s => simp [GoVal.isStr] at hns
        | vnil => rfl
        | list zs => rfl
        | vmap m => rfl
        | other => rfl
      | cons w wtl => rfl
  · intro xs t attrs k vals v hspan hattr hk hv hns
    refine ParseTextSpans_list_err xs (parseSpanList_bad xs
      (Or.inr ⟨[.str t, .list attrs], hspan, ?_⟩))
    have hbad := parseTextSpanAttributes_bad attrs
      (Or.inr ⟨.str k :: vals, hattr, attr_bad_nonstr k vals v hk hv hns⟩)
      { Text := t, Attrs := [] }
    simpa [parseTextSpan] using hbad
  · intro xs t attrs vals hspan hattr hdate
    refine ParseTextSpans_list_err xs (parseSpanList_bad xs
      (Or.inr ⟨[.str t, .list attrs], hspan, ?_⟩))
    have hbad := parseTextSpanAttributes_bad attrs
      (Or.inr ⟨.str Attr2Date :: vals, hattr, attr_bad_date vals hdate⟩)
      { Text := t, Attrs := [] }
    simpa [parseTextSpan] using hbad
  · intro b t rest ht
    cases hc : collectAttrStrings rest with
    | error e => simp [parseTextSpanAttribute, ht, hc]
    | ok strs => simp [parseTextSpanAttribute, ht, hc]
  · intro b m
    rw [parseTextSpanAttribute]
    rw [if_pos rfl]
  · intro raw spans h span hspan attr hattr
    cases raw with
    | vnil =>
      have hsp : spans = [] := by simpa [ParseTextSpans] using h.symm
      subst hsp; simp at hspan
    | list xs =>
      cases xs with
      | nil => simp [ParseTextSpans] at h
      | cons x rest =>
        have h2 : parseSpanList (x :: rest) = .ok spans := by
          simpa [ParseTextSpans] using h
        exact parseSpanList_shape (x :: rest) spans h2 span hspan attr hattr
    | str s => simp [ParseTextSpans] at h
    | vmap m => simp [ParseTextSpans] at h
    | other => simp [ParseTextSpans] at h

theorem c9_parse_text_spans_witness :
    exceptIsError (ParseTextSpans GoVal.other) = true :=
  c9_parse_text_spans.1 GoVal.other (by intro h; cases h) rfl

/-- C9 counterexample: the nil input is not a list of lists, yet
ParseTextSpans returns no spans and no error for it. -/
theorem c9_counterexample :
    ParseTextSpans GoVal.vnil = .ok [] ∧ GoVal.vnil.isList = false :=
  ⟨rfl, rfl⟩

/-! ## Crawl lemmas (C8) -/

theorem strLeList_total : ∀ a b : List Char, strLeList a b = true ∨ strLeList b a = true := by
  intro a
  induction a with
  | nil => intro b; exact Or.inl rfl
  | cons x xs ih =>
    intro b
    cases b with
    | nil => exact Or.inr rfl
    | cons y ys =>
      by_cases hxy : x.toNat = y.toNat
      · rcases ih ys with h | h
        · exact Or.inl (by simp [strLeList, hxy, h])
        · exact Or.inr (by simp [strLeList, hxy.symm, h])
      · rcases Nat.lt_or_ge x.toNat y.toNat with h | h
        · exact Or.inl (by simp [strLeList, hxy, h])
        · have h2 : y.toNat < x.toNat := lt_of_le_of_ne h (fun hk => hxy hk.symm)
          have hyx : ¬ y.toNat = x.toNat := fun hk => hxy hk.symm
          exact Or.inr (by simp [strLeList, hyx, h2])

theorem strLeList_trans :
    ∀ a b c : List Char, strLeList a b = true → strLeList b c = true →
    strLeList a c = true := by
  intro a
  induction a with
  | nil => intro b c _ _; rfl
  | cons x xs ih =>
    intro b c hab hbc
    cases b with
    | nil => simp [strLeList] at hab
    | cons y ys =>
      cases c with
      | nil => simp [strLeList] at hbc
      | cons z zs =>
        by_cases hxy : x.toNat = y.toNat
        · by_cases hyz : y.toNat = z.toNat
          · have hxz : x.toNat = z.toNat := hxy.trans hyz
            rw [strLeList] at hab hbc ⊢
            rw [if_pos hxy] at hab
            rw [if_pos hyz] at hbc
            rw [if_pos hxz]
            exact ih ys zs hab hbc
          · rw [strLeList, if_neg hyz] at hbc
            have hlt : y.toNat < z.toNat := by simpa using hbc
            have hxz : x.toNat < z.toNat := hxy ▸ hlt
            rw [strLeList, if_neg (Nat.ne_of_lt hxz)]
            simpa using hxz
        · rw [strLeList, if_neg hxy] at hab
          have hltxy : x.toNat < y.toNat := by simpa using hab
          by_cases hyz : y.toNat = z.toNat
          · have hxz : x.toNat < z.toNat := hyz ▸ hltxy
            rw [strLeList, if_neg (Nat.ne_of_lt hxz)]
            simpa using hxz
          · rw [strLeList, if_neg hyz] at hbc
            have hltyz : y.toNat < z.toNat := by simpa using hbc
            have hxz : x.toNat < z.toNat := lt_trans hltxy hltyz
            rw [strLeList, if_neg (Nat.ne_of_lt hxz)]
            simpa using hxz

instance : IsTotal String (fun a b => strLeb a b = true) :=
  ⟨fun a b => strLeList_total a.data b.data⟩

instance : IsTrans String (fun a b => strLeb a b = true) :=
  ⟨fun a b c => strLeList_trans a.data b.data c.data⟩

theorem alookup_mem {α : Type} :
    ∀ (l : List (String × α)) (k : String) (v : α),
    alookup k l = some v → (k, v) ∈ l := by
  intro l
  induction l with
  | nil => intro k v h; simp [alookup] at h
  | cons p rest ih =>
    intro k v h
    obtain ⟨k1, v1⟩ := p
    by_cases hk : k1 = k
    · subst hk
      have hv : v1 = v := by simpa [alookup] using h
      subst hv
      exact List.mem_cons_self _ _
    · exact List.mem_cons_of_mem _ (ih k v (by simpa [alookup, hk] using h))

theorem alookup_none_not_mem {α : Type} :
    ∀ (l : List (String × α)) (k : String),
    alookup k l = none → ¬ k ∈ l.map Prod.fst := by
  intro l
  induction l with
  | nil => intro k _ h; simp at h
  | cons p rest ih =>
    intro k h hmem
    obtain ⟨k1, v1⟩ := p
    by_cases hk : k1 = k
    · subst hk; simp [alookup] at h
    · rw [List.map_cons] at hmem
      rcases List.mem_cons.mp hmem with h1 | h1
      · exact hk h1.symm
      · exact ih k (by simpa [alookup, hk] using h) h1

theorem alookup_some_mem_keys {α : Type} (l : List (String × α)) (k : String) (v : α)
    (h : alookup k l = some v) : k ∈ l.map Prod.fst := by
  have := alookup_mem l k v h
  exact List.mem_map.mpr ⟨(k, v), this, rfl⟩

theorem aset_fresh_append {α : Type} :
    ∀ (l : List (String × α)) (k : String) (v : α),
    alookup k l = none → aset k v l = l ++ [(k, v)] := by
  intro l
  induction l with
  | nil => intro k v _; rfl
  | cons p rest ih =>
    intro k v h
    obtain ⟨k1, v1⟩ := p
    by_cases hk : k1 = k
    · subst hk; simp [alookup] at h
    · simp [aset, hk, ih k v (by simpa [alookup, hk] using h)]

theorem mem_universe_start (g : List (String × List String)) (start : String) :
    ToNoDashID start ∈ crawlUniverse g start := by
  simp [crawlUniverse, List.mem_dedup, mentionedIDs]

theorem mem_universe_sub (g : List (String × List String)) (start : String) :
    ∀ (p q : String), q ∈ gsub g p → ToNoDashID q ∈ crawlUniverse g start := by
  intro p q hq
  rw [crawlUniverse, List.mem_dedup]
  rw [gsub] at hq
  cases hl : alookup p g with
  | none => rw [hl] at hq; simp at hq
  | some vs =>
    rw [hl] at hq
    simp only [Option.getD_some] at hq
    have hmem := alookup_mem g p vs hl
    rw [mentionedIDs]
    apply List.mem_cons_of_mem
    clear hl
    induction g with
    | nil => simp at hmem
    | cons e rest ih =>
      rcases List.mem_cons.mp hmem with h | h
      · subst h
        simp only [List.foldr_cons]
        apply List.mem_cons_of_mem
        exact List.mem_append_left _ (List.mem_map_of_mem ToNoDashID hq)
      · simp only [List.foldr_cons]
        apply List.mem_cons_of_mem
        exact List.mem_append_right _ (ih h)

theorem filter_remove_sum (w : String → Nat) (L K : List String) (p : String)
    (hnd : L.Nodup) (hpL : p ∈ L) (hpK : ¬ p ∈ K) :
    ((L.filter (fun x => ¬ x ∈ (K ++ [p]))).map w).sum + w p =
      ((L.filter (fun x => ¬ x ∈ K)).map w).sum := by
  have hM : L.filter (fun x => ¬ x ∈ (K ++ [p])) =
      (L.filter (fun x => ¬ x ∈ K)).filter (fun x => x ≠ p) := by
    rw [List.filter_filter]
    apply List.filter_congr
    intro x _
    by_cases h1 : x ∈ K <;> by_cases h2 : x = p <;>
      simp [h1, h2, List.mem_append]
  have hpM : p ∈ L.filter (fun x => ¬ x ∈ K) :=
    List.mem_filter.mpr ⟨hpL, by simpa using hpK⟩
  have hMnd : (L.filter (fun x => ¬ x ∈ K)).Nodup := hnd.filter _
  have herase : (L.filter (fun x => ¬ x ∈ K)).filter (fun x => x ≠ p) =
      (L.filter (fun x => ¬ x ∈ K)).erase p := by
    rw [List.Nodup.erase_eq_filter hMnd]
    apply List.filter_congr
    intro x _
    by_cases h : x = p <;> simp [h, bne]
  have hperm : List.Perm (L.filter (fun x => ¬ x ∈ K))
      (p :: (L.filter (fun x => ¬ x ∈ K)).erase p) :=
    List.perm_cons_erase hpM
  have hsum := (hperm.map w).sum_eq
  rw [List.map_cons, List.sum_cons] at hsum
  rw [hM, herase]
  omega

theorem crawlLoop_run (g : List (String × List String)) (start : String) :
    ∀ (fuel : Nat) (queue : List String) (down : List (String × CrawlPage)),
    (∀ x ∈ queue, ToNoDashID x ∈ crawlUniverse g start) →
    (∀ x ∈ queue, Reach g start (ToNoDashID x)) →
    (∀ p ∈ down.map Prod.fst, p ∈ crawlUniverse g start) →
    (∀ p ∈ down.map Prod.fst, Reach g start p) →
    (down.map Prod.fst).Nodup →
    (∀ p ∈ down.map Prod.fst, ∀ q ∈ gsub g p,
      ToNoDashID q ∈ down.map Prod.fst ∨ ToNoDashID q ∈ queue.map ToNoDashID) →
    crawlPot g start queue (down.map Prod.fst) < fuel →
    ∃ finalDown calls,
      crawlLoop (graphDL g) none fuel queue down = (.ok finalDown, calls) ∧
      finalDown.map Prod.fst = down.map Prod.fst ++ calls ∧
      (finalDown.map Prod.fst).Nodup ∧
      (∀ p ∈ finalDown.map Prod.fst, Reach g start p) ∧
      (∀ p ∈ finalDown.map Prod.fst, ∀ q ∈ gsub g p,
        ToNoDashID q ∈ finalDown.map Prod.fst) ∧
      (∀ x ∈ queue, ToNoDashID x ∈ finalDown.map Prod.fst) := by
  intro fuel
  induction fuel with
  | zero => intro queue down _ _ _ _ _ _ hfuel; omega
  | succ fuel ih =>
    intro queue down hq hqr hd hdr hnd hcl hfuel
    cases queue with
    | nil =>
      refine ⟨down, [], rfl, by simp, hnd, hdr, ?_, by simp⟩
      intro p hp q hq2
      rcases hcl p hp q hq2 with h | h
      · exact h
      · simp at h
    | cons x rest =>
      cases hlk : alookup (ToNoDashID x) down with
      | some page =>
        have hstep : crawlLoop (graphDL g) none (fuel+1) (x :: rest) down =
            crawlLoop (graphDL g) none fuel rest down := by
          simp [crawlLoop, hlk]
        have hpot : crawlPot g start rest (down.map Prod.fst) < fuel := by
          have he : crawlPot g start (x :: rest) (down.map Prod.fst) =
              crawlPot g start rest (down.map Prod.fst) + 1 := by
            simp only [crawlPot, List.length_cons]
            omega
          omega
        have hmemk : ToNoDashID x ∈ down.map Prod.fst :=
          alookup_some_mem_keys down (ToNoDashID x) page hlk
        have hcl2 : ∀ p ∈ down.map Prod.fst, ∀ q ∈ gsub g p,
            ToNoDashID q ∈ down.map Prod.fst ∨ ToNoDashID q ∈ rest.map ToNoDashID := by
          intro p hp q hq2
          rcases hcl p hp q hq2 with h | h
          · exact Or.inl h
          · rw [List.map_cons] at h
            rcases List.mem_cons.mp h with h2 | h2
            · exact Or.inl (h2 ▸ hmemk)
            · exact Or.inr h2
        obtain ⟨fd, calls, hrun, hkeys, hcnd, hcr, hccl, habs⟩ :=
          ih rest down (fun y hy => hq y (List.mem_cons_of_mem x hy))
            (fun y hy => hqr y (List.mem_cons_of_mem x hy)) hd hdr hnd hcl2 hpot
        refine ⟨fd, calls, hstep ▸ hrun, hkeys, hcnd, hcr, hccl, ?_⟩
        intro y hy
        rcases List.mem_cons.mp hy with h2 | h2
        · subst h2
          rw [hkeys]
          exact List.mem_append_left _ hmemk
        · exact habs y h2
      | none =>
        have hpidU : ToNoDashID x ∈ crawlUniverse g start :=
          hq x (List.mem_cons_self x rest)
        have hpidR : Reach g start (ToNoDashID x) :=
          hqr x (List.mem_cons_self x rest)
        have hpidK : ¬ ToNoDashID x ∈ down.map Prod.fst :=
          alookup_none_not_mem down (ToNoDashID x) hlk
        have hset : aset (ToNoDashID x) (⟨gsub g (ToNoDashID x)⟩ : CrawlPage) down =
            down ++ [(ToNoDashID x, ⟨gsub g (ToNoDashID x)⟩)] :=
          aset_fresh_append down (ToNoDashID x) _ hlk
        have hkeys2 : (aset (ToNoDashID x) (⟨gsub g (ToNoDashID x)⟩ : CrawlPage)
            down).map Prod.fst = down.map Prod.fst ++ [ToNoDashID x] := by
          rw [hset]; simp
        have hq2 : ∀ y ∈ rest ++ gsub g (ToNoDashID x),
            ToNoDashID y ∈ crawlUniverse g start := by
          intro y hy
          rcases List.mem_append.mp hy with h | h
          · exact hq y (List.mem_cons_of_mem x h)
          · exact mem_universe_sub g start (ToNoDashID x) y h
        have hqr2 : ∀ y ∈ rest ++ gsub g (ToNoDashID x),
            Reach g start (ToNoDashID y) := by
          intro y hy
          rcases List.mem_append.mp hy with h | h
          · exact hqr y (List.mem_cons_of_mem x h)
          · exact Reach.step hpidR h
        have hd2 : ∀ p ∈ down.map Prod.fst ++ [ToNoDashID x],
            p ∈ crawlUniverse g start := by
          intro p hp
          rcases List.mem_append.mp hp with h | h
          · exact hd p h
          · rw [List.mem_singleton.mp h]; exact hpidU
        have hdr2 : ∀ p ∈ down.map Prod.fst ++ [ToNoDashID x], Reach g start p := by
          intro p hp
          rcases List.mem_append.mp hp with h | h
          · exact hdr p h
          · rw [List.mem_singleton.mp h]; exact hpidR
        have hnd2 : (down.map Prod.fst ++ [ToNoDashID x]).Nodup := by
          refine List.Nodup.append hnd (List.nodup_singleton _) ?_
          intro a ha hb
          rw [List.mem_singleton.mp hb] at ha
          exact hpidK ha
        have hcl2 : ∀ p ∈ down.map Prod.fst ++ [ToNoDashID x], ∀ q ∈ gsub g p,
            ToNoDashID q ∈ down.map Prod.fst ++ [ToNoDashID x] ∨
              ToNoDashID q ∈ (rest ++ gsub g (ToNoDashID x)).map ToNoDashID := by
          intro p hp q hqsub
          rcases List.mem_append.mp hp with h | h
          · rcases hcl p h q hqsub with h2 | h2
            · exact Or.inl (List.mem_append_left _ h2)
            · rw [List.map_cons] at h2
              rcases List.mem_cons.mp h2 with h3 | h3
              · exact Or.inl (List.mem_append_right _ (by simp [h3]))
              · exact Or.inr (by rw [List.map_append]; exact List.mem_append_left _ h3)
          · rw [List.mem_singleton.mp h] at hqsub
            refine Or.inr ?_
            rw [List.map_append]
            exact List.mem_append_right _ (List.mem_map_of_mem ToNoDashID hqsub)
        have hfr := filter_remove_sum (fun p => 1 + (gsub g p).length)
          (crawlUniverse g start) (down.map Prod.fst) (ToNoDashID x)
          (List.nodup_dedup _) hpidU hpidK
        simp only at hfr
        have hpot2 : crawlPot g start (rest ++ gsub g (ToNoDashID x))
            (down.map Prod.fst ++ [ToNoDashID x]) < fuel := by
          simp only [crawlPot, List.length_append, List.length_cons] at hfuel ⊢
          omega
        obtain ⟨fd, calls, hrun, hkeys, hcnd, hcr, hccl, habs⟩ :=
          ih (rest ++ gsub g (ToNoDashID x))
            (aset (ToNoDashID x) ⟨gsub g (ToNoDashID x)⟩ down)
            (by rw [hkeys2] at *; exact hq2)
            hqr2
            (by rw [hkeys2]; exact hd2)
            (by rw [hkeys2]; exact hdr2)
            (by rw [hkeys2]; exact hnd2)
            (by rw [hkeys2]; exact hcl2)
            (by rw [hkeys2]; exact hpot2)
        have hstep : crawlLoop (graphDL g) none (fuel+1) (x :: rest) down =
            (.ok fd, ToNoDashID x :: calls) := by
          simp [crawlLoop, hlk, graphDL, hrun]
        refine ⟨fd, ToNoDashID x :: calls, hstep, ?_, hcnd, hcr, hccl, ?_⟩
        · rw [hkeys, hkeys2]
          simp
        · intro y hy
          rcases List.mem_cons.mp hy with h2 | h2
          · subst h2
            rw [hkeys, hkeys2]
            exact List.mem_append_left _ (List.mem_append_right _ (by simp))
          · have := habs y (List.mem_append_left _ h2)
            exact this

/-- C8: over any finite page-reference graph — cyclic ones included —
DownloadPagesRecursively terminates within an explicit fuel bound (the
unbounded Go loop never spins), downloads each reachable page, keyed by
no-dash identity, exactly once (the downloader is invoked on a
duplicate-free list of ids that is exactly the reachable set), and
returns the downloaded pages sorted ascending by no-dash identity. -/
theorem c8_crawl (g : List (String × List String)) (start : String) (fuel : Nat)
    (hfuel : crawlBound g start ≤ fuel) :
    ∃ pages calls,
      downloadPagesRecursively (graphDL g) none fuel start = (.ok (some pages), calls) ∧
      calls.Nodup ∧
      (∀ p, p ∈ calls ↔ Reach g start p) ∧
      pages.map Prod.fst = sortStrings calls ∧
      List.Sorted (fun a b => strLeb a b = true) (pages.map Prod.fst) ∧
      (∀ p, p ∈ pages.map Prod.fst ↔ Reach g start p) := by
  have hpot : crawlPot g start [start] (([] : List (String × CrawlPage)).map Prod.fst)
      < fuel := by
    have h1 : crawlBound g start = crawlPot g start [start] [] + 1 := rfl
    simp only [List.map_nil]
    omega
  obtain ⟨fd, calls, hrun, hkeys, hcnd, hcr, hccl, habs⟩ :=
    crawlLoop_run g start fuel [start] []
      (by intro y hy; rw [List.mem_singleton.mp hy]; exact mem_universe_start g start)
      (by intro y hy; rw [List.mem_singleton.mp hy]; exact Reach.base)
      (by simp) (by simp) (by simp) (by simp) hpot
  simp only [List.map_nil, List.nil_append] at hkeys
  have hstartmem : ToNoDashID start ∈ fd.map Prod.fst :=
    habs start (List.mem_singleton.mpr rfl)
  have hreach_mem : ∀ p, Reach g start p → p ∈ fd.map Prod.fst := by
    intro p hp
    induction hp with
    | base => exact hstartmem
    | step hr hq ih2 => exact hccl _ ih2 _ hq
  have hlen : ¬ fd.length = 0 := by
    intro h
    rw [List.length_eq_zero.mp h] at hstartmem
    simp at hstartmem
  have hcomp : ∀ L : List String,
      (L.map (fun id => (id, (alookup id fd).getD (⟨[]⟩ : CrawlPage)))).map Prod.fst
        = L := by
    intro L
    induction L with
    | nil => rfl
    | cons a L ihL => simp [ihL]
  refine ⟨(sortStrings (fd.map Prod.fst)).map
      (fun id => (id, (alookup id fd).getD ⟨[]⟩)), calls, ?_, ?_, ?_, ?_, ?_, ?_⟩
  · simp [downloadPagesRecursively, hrun, hlen]
  · rw [← hkeys]; exact hcnd
  · intro p
    rw [← hkeys]
    exact ⟨fun h => hcr p h, fun h => hreach_mem p h⟩
  · rw [← hkeys]
    exact hcomp _
  · rw [hcomp _]
    exact List.sorted_insertionSort _ _
  · intro p
    rw [hcomp _]
    simp only [sortStrings, List.mem_insertionSort]
    exact ⟨fun h => hcr p h, fun h => hreach_mem p h⟩

theorem c8_crawl_witness :
    ∃ pages calls,
      downloadPagesRecursively (graphDL cycGraph) none (crawlBound cycGraph pidA) pidA =
        (.ok (some pages), calls) ∧
      calls.Nodup ∧
      (∀ p, p ∈ calls ↔ Reach cycGraph pidA p) ∧
      pages.map Prod.fst = sortStrings calls ∧
      List.Sorted (fun a b => strLeb a b = true) (pages.map Prod.fst) ∧
      (∀ p, p ∈ pages.map Prod.fst ↔ Reach cycGraph pidA p) :=
  c8_crawl cycGraph pidA (crawlBound cycGraph pidA) (Nat.le_refl _)

end NotionCache
